import Mathlib

/-!
Verification development for the relnote-pro changelog engine.

The program is a text-rewriting engine over a single changelog document.
We embed the relevant source functions (src/changelog.ts, src/categorize.ts,
src/semver.ts — the target-branch-aware, English-categories implementation,
i.e. the second half of changelog.ts) shallowly in Lean:

* a text is a `List Char` (JavaScript strings over the characters that
  actually occur in changelog documents; `String.prototype.slice`,
  `indexOf`, `split("\n")` etc. become list operations);
* a document is a `List (List Char)`: its list of newline-separated
  lines, matching the `text.split(/\r?\n/)` view used by
  `captureUnreleased` (documents are assumed CR-free, the separator is
  a single `'\n'`);
* the regular expressions of the source are translated predicate by
  predicate; each translation is documented next to its definition.
-/

/-- Texts are embedded as their character lists. -/
abbrev Text := List Char

/-- Documents are embedded as their lists of newline-separated lines. -/
abbrev Doc := List Text

/-- Shorthand turning a Lean string literal into its character list. -/
def lc (s : String) : Text := s.toList

/-- The character class of the JavaScript `\s` used by the source's
regexes, `trim`, and `trimEnd` (ASCII part; the source never feeds
non-ASCII whitespace). -/
def jsWs (c : Char) : Bool :=
  c = ' ' || c = '\t' || c = '\n' || c = '\r' || c = '\x0b' || c = '\x0c'

/-- JavaScript `toLowerCase` on the ASCII range. -/
def lowerC (cs : Text) : Text := cs.map Char.toLower

/-- JavaScript `trimStart`. -/
def trimStartC (cs : Text) : Text := cs.dropWhile jsWs

/-- JavaScript `trimEnd`; also the effect of `replace(/\s+$/s, "")`. -/
def trimEndC (cs : Text) : Text := (cs.reverse.dropWhile jsWs).reverse

/-- JavaScript `trim`. -/
def trimC (cs : Text) : Text := trimEndC (trimStartC cs)

/-- JavaScript `String.prototype.includes`: `isInfixC sub cs` is true iff
`sub` occurs contiguously inside `cs`. -/
def isInfixC (sub : Text) : Text → Bool
  | [] => sub.isEmpty
  | c :: rest => sub.isPrefixOf (c :: rest) || isInfixC sub rest

/-- `text.split("\n")` on the character list: the list of lines. -/
def splitOnNl : Text → Doc
  | [] => [[]]
  | c :: rest =>
    if c = '\n' then [] :: splitOnNl rest
    else
      match splitOnNl rest with
      | [] => [[c]]
      | l :: ls => (c :: l) :: ls

/-- `lines.join("\n")`. -/
def joinNl : Doc → Text
  | [] => []
  | [l] => l
  | l :: ls => l ++ '\n' :: joinNl ls

/-- The lines of the `HEADER` template of changelog.ts:
a changelog title, an intro line, a blank, the staging header, and the
trailing blank produced by the template's final newline. -/
def headerLines : Doc :=
  [lc "# Changelog",
   lc "All notable changes to this project will be documented in this file.",
   [],
   lc "## [Unreleased]",
   []]

/-- The per-line reading of the test `/^\#\s*Changelog/im`: the line
starts with `#`, then optional whitespace, then `Changelog`
case-insensitively. -/
def isChangelogTitleLine (l : Text) : Bool :=
  match l with
  | '#' :: rest => (lc "changelog").isPrefixOf (lowerC (rest.dropWhile jsWs))
  | _ => false

/-- `UNRELEASED_HEADER_RE = /^##\s*\[?\s*unreleased\s*\]?\s*$/im`,
matched against one line. -/
def isUnreleasedHeaderLine (l : Text) : Bool :=
  match lowerC l with
  | '#' :: '#' :: r0 =>
    let r1 := r0.dropWhile jsWs
    let r2 := match r1 with
      | '[' :: t => t.dropWhile jsWs
      | _ => r1
    if (lc "unreleased").isPrefixOf r2 then
      let r3 := (r2.drop 10).dropWhile jsWs
      let r4 := match r3 with
        | ']' :: t => t
        | _ => r3
      (r4.dropWhile jsWs).isEmpty
    else false
  | _ => false

/-- The `/^##\s+/` test of `captureUnreleased`'s end-of-section scan:
`##` followed by at least one whitespace character. -/
def isSectionStartLine (l : Text) : Bool :=
  match l with
  | '#' :: '#' :: c :: _ => jsWs c
  | _ => false

/-- Does some line of the document pass `/^\#\s*Changelog/im`? -/
def hasChangelogHeader (L : Doc) : Bool := L.any isChangelogTitleLine

/-- Does some line of the document pass `UNRELEASED_HEADER_RE`? -/
def hasUnreleased (L : Doc) : Bool := L.any isUnreleasedHeaderLine

/-- `t.indexOf("\n## ")` in line terms: the first occurrence of the
substring `"\n## "` sits at the newline in front of the first line of
index at least 1 that starts with `"## "`; we return that line index. -/
def firstSectionIdx (L : Doc) : Option Nat :=
  match L with
  | [] => none
  | _ :: rest => (rest.findIdx? (fun l => (lc "## ").isPrefixOf l)).map (· + 1)

/-- The second step of `ensureHeaderAndUnreleased`: when no staging
header is present, splice `"\n## [Unreleased]\n\n"` in front of the
first `"\n## "` (in line terms: the inserted string contributes the
lines `["## [Unreleased]", "", ""]`), or append it. -/
def insertUnreleased (t : Doc) : Doc :=
  if hasUnreleased t then t
  else
    match firstSectionIdx t with
    | some i => t.take i ++ [lc "## [Unreleased]", [], []] ++ t.drop i
    | none => t ++ [lc "## [Unreleased]", [], []]

/-- `ensureHeaderAndUnreleased` (changelog.ts, target-branch version):
prepend the `HEADER` template when no changelog title line is present,
then ensure a staging section exists. -/
def ensureHeaderAndUnreleased (L : Doc) : Doc :=
  insertUnreleased (if hasChangelogHeader L then L else headerLines ++ L)

/-- `captureUnreleased` (changelog.ts): the index of the staging header
line and the exclusive end index of the staging section (the next
`/^##\s+/` line, or the document length). -/
def captureUnreleased (L : Doc) : Option (Nat × Nat) :=
  match L.findIdx? isUnreleasedHeaderLine with
  | none => none
  | some start =>
    match (L.drop (start + 1)).findIdx? isSectionStartLine with
    | none => some (start, L.length)
    | some j => some (start, start + 1 + j)

/-- The staging section's body as `captureUnreleased` reports it:
`lines.slice(start+1, end).join("\n")` (empty when there is no staging
section). -/
def stagingBody (L : Doc) : Text :=
  match captureUnreleased L with
  | none => []
  | some (s, e) => joinNl ((L.drop (s + 1)).take (e - (s + 1)))

/-- A parse of the conventional-commit grammar
`/^(\w+)(?:\(([^)]+)\))?(!)?:\s*(.+)$/` (categorize.ts `CC_RE`; the
title-stripping regex of `normalizeTitleForBullet` is the same pattern
with the bang and scope groups non-captured). -/
structure CCMatch where
  ctype : Text
  scope : Option Text
  bang : Bool
  subject : Text
  deriving Repr, DecidableEq

/-- JavaScript `\w` (ASCII word character). -/
def isWordChar (c : Char) : Bool := c.isAlphanum || c = '_'

/-- A JavaScript regex line terminator (`.` does not match these). -/
def isLineTerm (c : Char) : Bool := c = '\n' || c = '\r'

/-- The tail `\s*(.+)$` of `CC_RE` with backtracking: the greedy `\s*`
consumes the maximal whitespace prefix, shrinking only as far as needed
for `(.+)$` (at least one character, none of them a line terminator,
reaching the end of input) to succeed.  When the remainder is all
whitespace, the longest workable `\s*` leaves exactly the last character
as the subject, provided it is not a line terminator. -/
def ccTail (rem : Text) : Option Text :=
  let k := (rem.takeWhile jsWs).length
  let subj := rem.drop k
  if subj.isEmpty then
    match rem.getLast? with
    | none => none
    | some c => if isLineTerm c then none else some [c]
  else if subj.any isLineTerm then none
  else some subj

/-- The part `(!)?:\s*(.+)$` of `CC_RE`; when the optional bang fails
the continuation, the fallback without the bang needs a `:` where the
`!` stands, which never succeeds. -/
def ccAfterScope (rest : Text) : Option (Bool × Text) :=
  match rest with
  | '!' :: r2 =>
    (match r2 with
     | ':' :: rem => (ccTail rem).map (fun subj => (true, subj))
     | _ => none)
  | ':' :: rem => (ccTail rem).map (fun subj => (false, subj))
  | _ => none

/-- `CC_RE.exec(title)`.  `(\w+)` is the maximal word-character prefix
(a shorter one would leave a word character where the regex needs `(`,
`!` or `:`); the optional scope group `(?:\(([^)]+)\))?` is tried first
and, on failure of the continuation, skipped. -/
def ccExec (title : Text) : Option CCMatch :=
  let word := title.takeWhile isWordChar
  if word.isEmpty then none
  else
    let rest := title.drop word.length
    let withScope : Option CCMatch :=
      match rest with
      | '(' :: r1 =>
        let inner := r1.takeWhile (fun c => !(c = ')'))
        if inner.isEmpty then none
        else
          match r1.drop inner.length with
          | ')' :: r2 =>
            (ccAfterScope r2).map (fun p => ⟨word, some inner, p.1, p.2⟩)
          | _ => none
      | _ => none
    match withScope with
    | some m => some m
    | none => (ccAfterScope rest).map (fun p => ⟨word, none, p.1, p.2⟩)

/-- `normalizeTitleForBullet` (changelog.ts): strip a conventional-commit
prefix from the trimmed title, else use the trimmed title verbatim. -/
def normalizeTitleForBullet (title : Text) : Text :=
  match ccExec (trimC title) with
  | some m => m.subject
  | none => trimC title

/-- `formatBullet` (changelog.ts):
`- [<scope>] <normalized title> (#<prNumber>)`, the scope bracket omitted
when no scope is present. -/
def formatBullet (title : Text) (prNumber : Nat) (scope : Option Text) : Text :=
  let t := normalizeTitleForBullet title
  let scopeText := match scope with
    | some s => '[' :: s ++ lc "] "
    | none => []
  lc "- " ++ scopeText ++ t ++ lc " (#" ++ lc (toString prNumber) ++ [')']

/-- `insertIntoUnreleasedCategory` (changelog.ts).  Finds the category
header case-insensitively; if absent, appends a fresh block after the
trimmed body (`replace(/\s+$/s, "")`, with the removed trailing
whitespace re-appended as `suffix`); if present, splices the bullet
after the header and any blank lines that follow it, then guarantees a
final empty line. -/
def insertIntoUnreleasedCategory (unreleasedBody category bullet : Text) : Text :=
  let categoryHeader := lc "### " ++ category
  let lines := splitOnNl unreleasedBody
  match lines.findIdx? (fun l => lowerC (trimC l) == lowerC (trimC categoryHeader)) with
  | none =>
    let trimmed := trimEndC unreleasedBody
    let suffix := unreleasedBody.drop trimmed.length
    let block :=
      (if trimmed.isEmpty then [] else trimmed ++ lc "\n\n") ++
        categoryHeader ++ '\n' :: bullet ++ ['\n']
    block ++ suffix
  | some catStart =>
    let k := ((lines.drop (catStart + 1)).takeWhile (fun l => (trimC l).isEmpty)).length
    let insertAt := catStart + 1 + k
    let lines2 := lines.take insertAt ++ bullet :: lines.drop insertAt
    let lines3 := if lines2.getLast? == some ([] : Text) then lines2 else lines2 ++ [[]]
    joinNl lines3

/-- One step of `replace(/\n{3,}/g, "\n\n")`: `pending` counts the
newlines of the run currently being read; a finished run of three or
more newlines is emitted as exactly two. -/
def collapseNlGo : Nat → Text → Text
  | pending, [] => List.replicate (if pending ≥ 3 then 2 else pending) '\n'
  | pending, c :: rest =>
    if c = '\n' then collapseNlGo (pending + 1) rest
    else List.replicate (if pending ≥ 3 then 2 else pending) '\n' ++ c :: collapseNlGo 0 rest

/-- `text.replace(/\n{3,}/g, "\n\n")`. -/
def collapseNl (cs : Text) : Text := collapseNlGo 0 cs

/-- `replaceUnreleasedSection` (changelog.ts, target-branch version):
ensure the staging section, capture it, run the updater on its body, and
rebuild the document as
`[before, updatedBody.trimEnd(), "", after].join("\n").replace(/\n{3,}/g, "\n\n")`. -/
def replaceUnreleasedSection (L : Doc) (updater : Text → Text) : Doc :=
  let t := ensureHeaderAndUnreleased L
  match captureUnreleased t with
  | none => t
  | some (start, end_) =>
    let body := joinNl ((t.drop (start + 1)).take (end_ - (start + 1)))
    let updated := updater body
    let beforeS := joinNl (t.take (start + 1))
    let afterS := joinNl (t.drop end_)
    splitOnNl (collapseNl (joinNl [beforeS, trimEndC updated, [], afterS]))

/-- The pure core of `addUnreleasedEntry`: insert one formatted entry
into its category inside the staging section. -/
def addEntryCore (L : Doc) (category bullet : Text) : Doc :=
  replaceUnreleasedSection L (fun body => insertIntoUnreleasedCategory body category bullet)

/-- The version derived from the release event's tag
(`releaseUnreleased`, changelog.ts):
`tag.replace(/^v/i, "") || "0.0.0"` over `payload.release.tag_name ?? ""`.
`stripTagV` is the `replace(/^v/i, "")` part: exactly one leading `v` or
`V` is removed. -/
def stripTagV (tag : Text) : Text :=
  match tag with
  | c :: rest => if c = 'v' || c = 'V' then rest else tag
  | [] => []

/-- `(payload.release.tag_name ?? "").replace(/^v/i, "") || "0.0.0"`. -/
def versionOfTag (tagName : Option Text) : Text :=
  let tag := tagName.getD []
  let v := stripTagV tag
  if v.isEmpty then lc "0.0.0" else v

/-- The pure core of `releaseUnreleased` (changelog.ts, target-branch
version): capture the staging section, trim its body; when the trimmed
body is empty the document is returned unchanged with no extraction;
otherwise rebuild
`[before, "", versionHeader + cleanBody + "\n", after].join("\n").replace(/\n{3,}/g, "\n\n")`
and return the trimmed body as the extraction (the text mirrored into
the release annotation). -/
def releaseCutover (L : Doc) (version dateStr : Text) : Doc × Option Text :=
  match captureUnreleased L with
  | none => (L, none)
  | some (start, end_) =>
    let body := joinNl ((L.drop (start + 1)).take (end_ - (start + 1)))
    let unreleasedBody := trimC body
    if unreleasedBody.isEmpty then (L, none)
    else
      let versionHeader := lc "## [" ++ version ++ lc "] – " ++ dateStr ++ ['\n']
      let beforeS := joinNl (L.take (start + 1))
      let afterS := joinNl (L.drop end_)
      let cleanBody := trimEndC unreleasedBody
      (splitOnNl (collapseNl (joinNl [beforeS, [], versionHeader ++ cleanBody ++ ['\n'], afterS])),
       some unreleasedBody)

/-- The classification result of categorize.ts. -/
structure CategorizeResult where
  category : Text
  breaking : Bool
  scope : Option Text
  deriving Repr, DecidableEq

/-- The configuration surface `categorize` reads: the ordered
category → alias-list mapping and the breaking-label alias list. -/
structure Config where
  categories : List (Text × List Text)
  breakingLabels : List Text

/-- `norm` of categorize.ts: `s.trim().toLowerCase()`. -/
def normC (s : Text) : Text := lowerC (trimC s)

/-- `n.replace(/^type:\s*/, "")` for a literal prefix `pre`: strip the
prefix and the whitespace that follows it. -/
def stripLabelKey (pre : Text) (n : Text) : Text :=
  if pre.isPrefixOf n then (n.drop pre.length).dropWhile jsWs else n

/-- `COMMON_LABEL_ALIASES` of categorize.ts (the English table). -/
def COMMON_LABEL_ALIASES : List (Text × Text) :=
  [(lc "type: feat", lc "feat"), (lc "type: feature", lc "feat"),
   (lc "enhancement", lc "feat"), (lc "feature", lc "feat"), (lc "feat", lc "feat"),
   (lc "type: fix", lc "fix"), (lc "bug", lc "fix"), (lc "bugfix", lc "fix"),
   (lc "hotfix", lc "fix"), (lc "fix", lc "fix"),
   (lc "docs", lc "docs"), (lc "documentation", lc "docs"),
   (lc "perf", lc "perf"), (lc "performance", lc "perf"),
   (lc "refactor", lc "refactor"), (lc "refactoring", lc "refactor"),
   (lc "test", lc "test"), (lc "tests", lc "test"),
   (lc "chore", lc "chore"), (lc "maintenance", lc "chore")]

/-- `COMMON_LABEL_ALIASES[k]` as an optional lookup. -/
def aliasLookup (k : Text) : Option Text :=
  (COMMON_LABEL_ALIASES.find? (fun e => e.1 == k)).map (fun e => e.2)

/-- `normalizeLabel` of categorize.ts: normalize, strip `type:`/`kind:`
prefixes, then map through the alias table
(`ALIASES[stripped] ?? ALIASES[n] ?? stripped`). -/
def normalizeLabel (l : Text) : Text :=
  let n := normC l
  let stripped := stripLabelKey (lc "kind:") (stripLabelKey (lc "type:") n)
  ((aliasLookup stripped).orElse (fun _ => aliasLookup n)).getD stripped

/-- `BREAKING_TOKENS` of categorize.ts. -/
def BREAKING_TOKENS : List Text :=
  [lc "breaking change", lc "breaking changes", lc "breaking-change", lc "breaking"]

/-- The breaking-label loop body of `categorize`: a normalized label is
accepted when it is a normalized configured breaking label, or is one of
the built-in `"breaking"` / `"breaking-change"`. -/
def breakingLabelHit (cfg : Config) (l : Text) : Bool :=
  let lab := normalizeLabel l
  (cfg.breakingLabels.map normC).contains lab ||
    lab == lc "breaking" || lab == lc "breaking-change"

/-- `FALLBACKS` of categorize.ts (English version). -/
def FALLBACKS : List Text :=
  [lc "Features", lc "Fixes", lc "Docs", lc "Performance",
   lc "Refactor", lc "Tests", lc "Chores", lc "Misc"]

/-- `categorize` (categorize.ts, English version).  The `Map.set`
alias table is modelled by an association list in insertion order with
last-write-wins lookup.  The `breaking` flag is written in the
equivalent disjunction form of the source's two
`if (!breaking ...) breaking = true` steps. -/
def categorize (title : Text) (labels : List Text) (cfg : Config) : CategorizeResult :=
  let categoryOrder := cfg.categories.map (fun e => e.1)
  let aliasToCategory : List (Text × Text) :=
    cfg.categories.foldl
      (fun m e => (m ++ [(normC e.1, e.1)]) ++ e.2.map (fun a => (normC a, e.1)))
      []
  let getAlias : Text → Option Text :=
    fun k => ((aliasToCategory.reverse.find? (fun e => e.1 == k)).map (fun e => e.2))
  let parsed := ccExec title
  let ctype : Option Text := parsed.map (fun m => normC m.ctype)
  let scope : Option Text := parsed.bind (fun m => m.scope)
  let bang : Bool := (parsed.map (fun m => m.bang)).getD false
  let lowerTitle := normC title
  let breaking : Bool :=
    (bang || (!cfg.breakingLabels.isEmpty && labels.any (breakingLabelHit cfg))) ||
      BREAKING_TOKENS.any (fun tok => isInfixC tok lowerTitle)
  let normedLabels := labels.map normalizeLabel
  match cfg.categories.find?
      (fun e => normedLabels.contains (normC e.1) ||
        (e.2.map normC).any (fun a => normedLabels.contains a)) with
  | some e => { category := e.1, breaking := breaking, scope := scope }
  | none =>
    match ctype.bind getAlias with
    | some cat => { category := cat, breaking := breaking, scope := scope }
    | none =>
      let fallback := FALLBACKS.find? (fun f => categoryOrder.contains f)
      { category := fallback.getD (categoryOrder.headD (lc "Changes")),
        breaking := breaking, scope := scope }

/-- The bump levels of semver.ts. -/
inductive Bump where
  | major
  | minor
  | patch
  | none
  deriving Repr, DecidableEq

/-- `MINOR_CATS` of semver.ts. -/
def MINOR_CATS : List Text :=
  [lc "features", lc "feature", lc "enhancements", lc "adds", lc "new"]

/-- `PATCH_CATS` of semver.ts. -/
def PATCH_CATS : List Text :=
  [lc "fixes", lc "fix", lc "bug", lc "bugs", lc "docs", lc "documentation",
   lc "refactor", lc "tests", lc "test", lc "performance", lc "perf",
   lc "chore", lc "chores", lc "misc"]

/-- `suggestBump` (semver.ts) on a classification record. -/
def suggestBump (res : CategorizeResult) : Bump :=
  if res.breaking then Bump.major
  else
    let key := normC res.category
    if MINOR_CATS.contains key then Bump.minor
    else if PATCH_CATS.contains key then Bump.patch
    else if isInfixC (lc "feature") key then Bump.minor
    else if isInfixC (lc "fix") key || isInfixC (lc "bug") key ||
        isInfixC (lc "docs") key || isInfixC (lc "refactor") key ||
        isInfixC (lc "perf") key || isInfixC (lc "test") key ||
        isInfixC (lc "chore") key || isInfixC (lc "misc") key then Bump.patch
    else Bump.none

/-- `combineBumps` (semver.ts): highest severity wins. -/
def combineBumps (bumps : List Bump) : Bump :=
  if bumps.contains Bump.major then Bump.major
  else if bumps.contains Bump.minor then Bump.minor
  else if bumps.contains Bump.patch then Bump.patch
  else Bump.none

/-! ## Concrete documents, configurations and spec-side helper predicates -/

/-- The document of the C5 counterexample: a changelog title line occurs
only after an intro line, and the staging body lacks a trailing newline. -/
def docC5a : Doc := [lc "intro", lc "# Changelog", lc "## [Unreleased]", lc "- a"]

/-- A document with two staging headers, both spellings. -/
def docC5b : Doc := [lc "# Changelog", lc "## [Unreleased]", lc "x", lc "## Unreleased"]

/-- The configuration used by the Scenario E witness. -/
def cfgFixes : Config := ⟨[(lc "Fixes", [lc "bug", lc "fix"])], [lc "breaking"]⟩

/-- The configuration of the C4 counterexample: a non-empty
breaking-label list that does not contain `breaking`. -/
def cfgC4 : Config := ⟨[(lc "Fixes", [lc "fix"])], [lc "sem:major"]⟩

/-- The trivial configuration used by the C10 theorems. -/
def cfgC10 : Config := ⟨[(lc "Features", [])], []⟩

/-- The document of the C2 counterexample: its `1.0.0` version section
contains a run of three newlines. -/
def docC2 : Doc :=
  [lc "# Changelog", lc "", lc "## [Unreleased]", lc "### Fixes", lc "- a (#1)",
   lc "", lc "## [1.0.0] – 2024-01-01", lc "- old", lc "", lc "", lc "- older"]

/-- The staging body after the Scenario A/B first insertion. -/
def bodyAfter55 : Text := lc "### Fixes\n- clamp invalid question number (#55)\n"

/-- A document whose lines contain no newline character (the invariant
of the line-list embedding). -/
def nlFree (M : Doc) : Prop := ∀ l ∈ M, '\n' ∉ l

/-- Every line of the document has no trailing whitespace. -/
def trimEndFixed (M : Doc) : Prop := ∀ l ∈ M, trimEndC l = l

/-- The nonblank lines of a document. -/
def filterNB (M : Doc) : Doc := M.filter (fun l => !l.isEmpty)

/-- The run flushed by `collapseNlGo`. -/
def repNl (p : Nat) : Text := List.replicate (if p ≥ 3 then 2 else p) '\n'

def docC3 : Doc :=
  [lc "# Changelog", lc "", lc "## [Unreleased]", lc "### Fixes",
   lc "- a (#1)", lc "", lc "## [0.1.0] – 2024-01-01", lc "- old"]

def docC2w : Doc :=
  [lc "# Changelog", [], lc "## [Unreleased]", lc "### Fixes", lc "- a (#55)",
   [], lc "## [1.0.0] – 2024-01-01", lc "- old"]

/-! ## Helper lemmas -/

/-- Splicing a segment into a list preserves a positive `any`. -/
theorem any_take_insert_drop (p : Text → Bool) (M : Doc) (i : Nat) (mid : Doc)
    (h : M.any p = true) : (M.take i ++ mid ++ M.drop i).any p = true := by
  have h2 : ((M.take i).any p || (M.drop i).any p) = true := by
    rw [← List.any_append, List.take_append_drop]; exact h
  simp only [List.any_append, Bool.or_eq_true] at h2 ⊢
  rcases h2 with h2 | h2
  · exact Or.inl (Or.inl h2)
  · exact Or.inr h2

/-- `insertUnreleased` preserves a positive `any`. -/
theorem any_insertUnreleased (p : Text → Bool) (t : Doc) (hp : t.any p = true) :
    (insertUnreleased t).any p = true := by
  unfold insertUnreleased
  split
  · exact hp
  · split
    · exact any_take_insert_drop _ _ _ _ hp
    · simp only [List.any_append, Bool.or_eq_true]
      exact Or.inl hp

/-- `insertUnreleased` always leaves a staging header line present. -/
theorem hasUnreleased_insertUnreleased (t : Doc) :
    hasUnreleased (insertUnreleased t) = true := by
  unfold insertUnreleased
  split
  · assumption
  · split
    · simp only [hasUnreleased, List.any_append, Bool.or_eq_true]
      exact Or.inl (Or.inr (by decide))
    · simp only [hasUnreleased, List.any_append, Bool.or_eq_true]
      exact Or.inr (by decide)

/-- The output of `ensureHeaderAndUnreleased` always carries a changelog
title line. -/
theorem hasChangelogHeader_ensure (L : Doc) :
    hasChangelogHeader (ensureHeaderAndUnreleased L) = true := by
  have htrue : hasChangelogHeader (if hasChangelogHeader L then L else headerLines ++ L) = true := by
    split
    · assumption
    · simp only [hasChangelogHeader, List.any_append, Bool.or_eq_true]
      exact Or.inl (by decide)
  exact any_insertUnreleased _ _ htrue

/-- The output of `ensureHeaderAndUnreleased` always carries a staging
header line. -/
theorem hasUnreleased_ensure (L : Doc) :
    hasUnreleased (ensureHeaderAndUnreleased L) = true :=
  hasUnreleased_insertUnreleased _

/-- A document that already has both markers is left unchanged. -/
theorem ensure_of_has (M : Doc) (h1 : hasChangelogHeader M = true)
    (h2 : hasUnreleased M = true) : ensureHeaderAndUnreleased M = M := by
  simp [ensureHeaderAndUnreleased, insertUnreleased, h1, h2]

/-! ## Claims -/

/-- C1: `normalize` (`ensureHeaderAndUnreleased`) is idempotent: a second
application leaves the document unchanged, for every input document. -/
theorem c1_normalize_idempotent (L : Doc) :
    ensureHeaderAndUnreleased (ensureHeaderAndUnreleased L) = ensureHeaderAndUnreleased L :=
  ensure_of_has _ (hasChangelogHeader_ensure L) (hasUnreleased_ensure L)

/-- C5 counterexample: `normalize` leaves `docC5a` unchanged, so the
output neither begins with a title/intro header (its first line is
`intro`) nor has a staging body ending in a newline; and on `docC5b`
the output contains two staging sections, not exactly one. -/
theorem c5_counterexample :
    ensureHeaderAndUnreleased docC5a = docC5a ∧
    (ensureHeaderAndUnreleased docC5a).head? = some (lc "intro") ∧
    isChangelogTitleLine (lc "intro") = false ∧
    (stagingBody (ensureHeaderAndUnreleased docC5a)).getLast? ≠ some '\n' ∧
    (ensureHeaderAndUnreleased docC5b).countP isUnreleasedHeaderLine = 2 := by
  decide

/-- C5 (amended): `normalize` treats empty or section-free input as a
document to repair, not an error; its output always contains a staging
section, and whenever the input has no changelog title line anywhere the
full header template is prepended, so the output then begins with the
title/intro header.  (The output need not begin with a header when a
title line occurs later in the input, duplicate staging sections are not
collapsed, and the staging body is not forced to end with a newline.) -/
theorem c5_normalize_guarantees (L : Doc) :
    hasUnreleased (ensureHeaderAndUnreleased L) = true ∧
    (hasChangelogHeader L = false → ensureHeaderAndUnreleased L = headerLines ++ L) := by
  refine ⟨hasUnreleased_ensure L, fun h => ?_⟩
  have h2 : hasUnreleased (headerLines ++ L) = true := by
    simp only [hasUnreleased, List.any_append, Bool.or_eq_true]
    exact Or.inl (by decide)
  simp [ensureHeaderAndUnreleased, insertUnreleased, h, h2]

/-- Witness for C5 at the empty-of-structure input `["hello"]`. -/
theorem c5_witness :
    hasUnreleased (ensureHeaderAndUnreleased [lc "hello"]) = true ∧
    hasChangelogHeader [lc "hello"] = false ∧
    ensureHeaderAndUnreleased [lc "hello"] = headerLines ++ [lc "hello"] :=
  ⟨(c5_normalize_guarantees [lc "hello"]).1, by decide,
   (c5_normalize_guarantees [lc "hello"]).2 (by decide)⟩

/-- C7 counterexample: Scenario A as claimed (with a capitalized
`Clamp`) is not what the insertion produces. -/
theorem c7_counterexample :
    insertIntoUnreleasedCategory (lc "") (lc "Fixes")
        (formatBullet (lc "fix: clamp invalid question number") 55 none) ≠
      lc "### Fixes\n- Clamp invalid question number (#55)\n" := by
  decide

/-- C7 (amended): inserting the entry of Scenario A into an empty
staging body yields `### Fixes\n- clamp invalid question number (#55)\n`
— the conventional-commit prefix is stripped by re-parsing the title,
the subject is used verbatim (no capitalization), and the scope bracket
is omitted because no scope is present. -/
theorem c7_insert_scenario_a :
    insertIntoUnreleasedCategory (lc "") (lc "Fixes")
        (formatBullet (lc "fix: clamp invalid question number") 55 none) =
      lc "### Fixes\n- clamp invalid question number (#55)\n" ∧
    normalizeTitleForBullet (lc "fix: clamp invalid question number") =
      lc "clamp invalid question number" ∧
    formatBullet (lc "fix: clamp invalid question number") 55 none =
      lc "- clamp invalid question number (#55)" := by
  decide

/-- C8: a breaking classification always suggests a major bump,
regardless of the category name. -/
theorem c8_breaking_bump_major (res : CategorizeResult) (h : res.breaking = true) :
    suggestBump res = Bump.major := by
  simp [suggestBump, h]

/-- Witness for C8, Scenario E: the classification produced from labels
`["breaking", "bug"]` resolves to category `Fixes` with `breaking`, and
its bump is `major`, not `patch`. -/
theorem c8_witness :
    (categorize (lc "fix: x") [lc "breaking", lc "bug"] cfgFixes).breaking = true ∧
    (categorize (lc "fix: x") [lc "breaking", lc "bug"] cfgFixes).category = lc "Fixes" ∧
    suggestBump (categorize (lc "fix: x") [lc "breaking", lc "bug"] cfgFixes) = Bump.major ∧
    Bump.major ≠ Bump.patch :=
  ⟨by decide, by decide,
   c8_breaking_bump_major (categorize (lc "fix: x") [lc "breaking", lc "bug"] cfgFixes) (by decide),
   by decide⟩

/-- C9 counterexample: for the tag `"v"` (not missing, not empty) the
version written into the section header is `0.0.0`, not the result of
stripping the leading `v` (which is empty). -/
theorem c9_counterexample :
    versionOfTag (some (lc "v")) = lc "0.0.0" ∧
    stripTagV (lc "v") = ([] : Text) ∧
    versionOfTag (some (lc "v")) ≠ stripTagV (lc "v") := by
  decide

/-- C9 (amended): a missing or empty tag yields version `0.0.0`;
otherwise exactly one leading `v`/`V` is stripped and the remainder is
used, except that an empty remainder (tag exactly `v` or `V`) also
falls back to `0.0.0`. -/
theorem c9_version_from_tag (t : Option Text) :
    (t = none ∨ t = some [] → versionOfTag t = lc "0.0.0") ∧
    (∀ s, t = some s → stripTagV s ≠ [] → versionOfTag t = stripTagV s) ∧
    (∀ s, t = some s → stripTagV s = [] → versionOfTag t = lc "0.0.0") := by
  refine ⟨fun h => ?_, fun s hs h => ?_, fun s hs h => ?_⟩
  · rcases h with rfl | rfl <;> decide
  · subst hs
    simp only [versionOfTag, Option.getD]
    rw [if_neg]
    simp [List.isEmpty_iff, h]
  · subst hs
    simp [versionOfTag, Option.getD, List.isEmpty_iff, h]

/-- Witness for C9 at the tags `v1.2.3`, missing, and `V`. -/
theorem c9_witness :
    versionOfTag (some (lc "v1.2.3")) = lc "1.2.3" ∧
    versionOfTag none = lc "0.0.0" ∧
    versionOfTag (some (lc "V")) = lc "0.0.0" :=
  ⟨((c9_version_from_tag (some (lc "v1.2.3"))).2.1 (lc "v1.2.3") rfl (by decide)).trans (by decide),
   (c9_version_from_tag none).1 (Or.inl rfl),
   (c9_version_from_tag (some (lc "V"))).2.2 (lc "V") rfl (by decide)⟩

/-- C4 counterexample: with breaking labels configured as `["sem:major"]`,
the label `breaking` sets the breaking flag although none of the claim's
three signals holds — no grammar bang, no label matching a *configured*
breaking-label alias, no breaking phrase in the title. -/
theorem c4_counterexample :
    (categorize (lc "feat: x") [lc "breaking"] cfgC4).breaking = true ∧
    ((ccExec (lc "feat: x")).map (fun m => m.bang)).getD false = false ∧
    ([lc "breaking"].any
      (fun l => (cfgC4.breakingLabels.map normC).contains (normalizeLabel l))) = false ∧
    (BREAKING_TOKENS.any (fun tok => isInfixC tok (normC (lc "feat: x")))) = false := by
  decide

/-- C4 (amended): under a configuration with a non-empty breaking-label
list, `categorize` reports breaking exactly when the grammar bang is
present, or some normalized label matches a configured breaking-label
alias *or is one of the built-in aliases `breaking`/`breaking-change`*,
or the lower-cased title contains one of the fixed breaking phrases. -/
theorem c4_breaking_iff (title : Text) (labels : List Text) (cfg : Config)
    (h : cfg.breakingLabels ≠ []) :
    (categorize title labels cfg).breaking =
      (((ccExec title).map (fun m => m.bang)).getD false ||
        labels.any (breakingLabelHit cfg) ||
        BREAKING_TOKENS.any (fun tok => isInfixC tok (normC title))) := by
  have hne : cfg.breakingLabels.isEmpty = false := by
    simp [List.isEmpty_iff, h]
  simp only [categorize]
  split
  · simp [hne, Bool.or_assoc]
  · split
    · simp [hne, Bool.or_assoc]
    · simp [hne, Bool.or_assoc]

/-- Witness for C4 at a title with a bang and no matching label. -/
theorem c4_witness :
    cfgC4.breakingLabels ≠ [] ∧
    (categorize (lc "feat!: y") [] cfgC4).breaking =
      (((ccExec (lc "feat!: y")).map (fun m => m.bang)).getD false ||
        List.any [] (breakingLabelHit cfgC4) ||
        BREAKING_TOKENS.any (fun tok => isInfixC tok (normC (lc "feat!: y")))) :=
  ⟨by decide, c4_breaking_iff (lc "feat!: y") [] cfgC4 (by decide)⟩

/-- C10 counterexample: the title `feat(core)!: ` has an empty subject
up to whitespace, yet it *does* match the commit grammar — the greedy
`\s*` backtracks and leaves the space as the subject — so classification
extracts the type, the scope and the breaking bang from it. -/
theorem c10_counterexample :
    ccExec (lc "feat(core)!: ") = some ⟨lc "feat", some (lc "core"), true, lc " "⟩ ∧
    (categorize (lc "feat(core)!: ") [] cfgC10).breaking = true := by
  decide

/-- C10 (amended): a title whose *trimmed* form does not match the
grammar (in particular exactly `fix:` or `feat(core)!:`, with nothing
at all after the colon) renders as the whole trimmed title verbatim,
and classification of such a bare title extracts no breaking flag and
no scope; but when whitespace follows the colon the untrimmed title
does match the grammar with a whitespace subject. -/
theorem c10_empty_subject (title : Text) (h : ccExec (trimC title) = none) :
    normalizeTitleForBullet title = trimC title ∧
    ccExec (lc "fix:") = none ∧
    ccExec (lc "feat(core)!:") = none ∧
    (categorize (lc "fix:") [] cfgC10).breaking = false ∧
    (categorize (lc "fix:") [] cfgC10).scope = none := by
  refine ⟨?_, by decide, by decide, by decide, by decide⟩
  simp [normalizeTitleForBullet, h]

/-- Witness for C10 at the padded title `" fix: "` (trimmed: `fix:`). -/
theorem c10_witness :
    ccExec (trimC (lc " fix: ")) = none ∧
    normalizeTitleForBullet (lc " fix: ") = trimC (lc " fix: ") :=
  ⟨by decide, (c10_empty_subject (lc " fix: ") (by decide)).1⟩

/-- C2 counterexample: inserting an entry into the staging section's
`Fixes` block rewrites the `1.0.0` version section as well — the
`\n{3,}` collapse turns its `- old\n\n\n- older` into `- old\n\n- older`
— so other version sections are not preserved character for character. -/
theorem c2_counterexample :
    isInfixC (lc "- old\n\n\n- older") (joinNl docC2) = true ∧
    isInfixC (lc "- old\n\n\n- older")
      (joinNl (addEntryCore docC2 (lc "Fixes") (lc "- b (#2)"))) = false := by
  decide

/-- Elements inside a `takeWhile` prefix satisfy the predicate. -/
theorem takeWhile_get? {α : Type} (q : α → Bool) (xs : List α) (j : Nat)
    (hj : j < (xs.takeWhile q).length) :
    ∃ l, xs.get? j = some l ∧ q l = true := by
  induction xs generalizing j with
  | nil => simp [List.takeWhile] at hj
  | cons x xs ih =>
    cases hq : q x with
    | false => simp [List.takeWhile_cons, hq] at hj
    | true =>
      cases j with
      | zero => exact ⟨x, rfl, hq⟩
      | succ j' =>
        have hj' : j' < (xs.takeWhile q).length := by
          simpa [List.takeWhile_cons, hq, Nat.succ_lt_succ_iff] using hj
        simpa using ih j' hj'

/-- C6: when a category block with a case-insensitively matching header
already exists in the staging body (first match at line `i`), the new
entry is spliced in at line `i + 1 + k`, immediately after the header
and ahead of all existing entries, where `k` counts the blank lines
directly following the header (all lines strictly between the header
and the insertion point are blank); a trailing empty line is appended
when missing. -/
theorem c6_insert_existing (body c b : Text) (i : Nat)
    (h : (splitOnNl body).findIdx?
        (fun l => lowerC (trimC l) == lowerC (trimC (lc "### " ++ c))) = some i) :
    (insertIntoUnreleasedCategory body c b =
      joinNl
        (let U := splitOnNl body
         let p := i + 1 + ((U.drop (i + 1)).takeWhile (fun l => (trimC l).isEmpty)).length
         let V := U.take p ++ b :: U.drop p
         if V.getLast? == some ([] : Text) then V else V ++ [[]])) ∧
    (∀ j, i < j →
      j < i + 1 + (((splitOnNl body).drop (i + 1)).takeWhile (fun l => (trimC l).isEmpty)).length →
      ∃ l, (splitOnNl body).get? j = some l ∧ (trimC l).isEmpty = true) := by
  constructor
  · simp [insertIntoUnreleasedCategory, h]
  · intro j hij hjp
    obtain ⟨j', rfl⟩ : ∃ j', j = i + 1 + j' := ⟨j - (i + 1), by omega⟩
    have hj' : j' < (((splitOnNl body).drop (i + 1)).takeWhile (fun l => (trimC l).isEmpty)).length := by
      omega
    obtain ⟨l, hl, hql⟩ := takeWhile_get? _ _ _ hj'
    refine ⟨l, ?_, hql⟩
    rw [← hl, List.get?_drop]

/-- Witness for C6, Scenario B: inserting the entry for `#56` into the
body holding `#55` places `#56`'s line directly under the header, ahead
of `#55`'s; the two-step insertion from an empty body shows the same. -/
theorem c6_witness :
    (splitOnNl bodyAfter55).findIdx?
        (fun l => lowerC (trimC l) == lowerC (trimC (lc "### " ++ lc "Fixes"))) = some 0 ∧
    insertIntoUnreleasedCategory bodyAfter55 (lc "Fixes") (lc "- fix answer order (#56)") =
      lc "### Fixes\n- fix answer order (#56)\n- clamp invalid question number (#55)\n" ∧
    insertIntoUnreleasedCategory
        (insertIntoUnreleasedCategory (lc "") (lc "Fixes") (lc "- clamp invalid question number (#55)"))
        (lc "Fixes") (lc "- fix answer order (#56)") =
      lc "### Fixes\n- fix answer order (#56)\n- clamp invalid question number (#55)\n" :=
  ⟨by decide,
   ((c6_insert_existing bodyAfter55 (lc "Fixes") (lc "- fix answer order (#56)") 0 (by decide)).1).trans
     (by decide),
   by decide⟩

/-! ## Machinery: lines, joins, and the newline collapse -/

theorem splitOnNl_ne_nil (cs : Text) : splitOnNl cs ≠ [] := by
  induction cs with
  | nil => simp [splitOnNl]
  | cons c rest ih =>
    by_cases hc : c = '\n'
    · simp [splitOnNl, hc]
    · simp only [splitOnNl, if_neg hc]
      cases hsp : splitOnNl rest with
      | nil => simp
      | cons l ls => simp

theorem splitOnNl_cons_nl (y : Text) : splitOnNl ('\n' :: y) = [] :: splitOnNl y := by
  simp [splitOnNl]

theorem splitOnNl_cons_of_ne (c : Char) (y : Text) (hc : c ≠ '\n') :
    splitOnNl (c :: y) =
      (c :: (splitOnNl y).headI) :: (splitOnNl y).tail := by
  simp only [splitOnNl, if_neg hc]
  cases hsp : splitOnNl y with
  | nil => exact absurd hsp (splitOnNl_ne_nil y)
  | cons l ls => simp [List.headI]

/-- Splitting distributes over a newline: the `'\n'` closes the last
line of the left part. -/
theorem splitOnNl_append_nl (x y : Text) :
    splitOnNl (x ++ '\n' :: y) = splitOnNl x ++ splitOnNl y := by
  induction x with
  | nil => simp [splitOnNl]
  | cons c x' ih =>
    by_cases hc : c = '\n'
    · subst hc
      simp only [List.cons_append, splitOnNl_cons_nl, ih, List.cons_append]
    · rw [List.cons_append, splitOnNl_cons_of_ne c _ hc, splitOnNl_cons_of_ne c _ hc, ih]
      cases hsp : splitOnNl x' with
      | nil => exact absurd hsp (splitOnNl_ne_nil x')
      | cons l ls => simp [List.headI]

/-- A newline-free text is a single line. -/
theorem splitOnNl_of_nlFree (x : Text) (hx : '\n' ∉ x) : splitOnNl x = [x] := by
  induction x with
  | nil => simp [splitOnNl]
  | cons c x' ih =>
    have hc : c ≠ '\n' := fun h => hx (h ▸ List.mem_cons_self c x')
    have hx' : '\n' ∉ x' := fun h => hx (List.mem_cons_of_mem c h)
    rw [splitOnNl_cons_of_ne c _ hc, ih hx']
    simp [List.headI]

theorem joinNl_cons_cons (a b : Text) (rest : Doc) :
    joinNl (a :: b :: rest) = a ++ '\n' :: joinNl (b :: rest) := rfl

/-- Joining distributes over append (both halves nonempty). -/
theorem joinNl_append (A B : Doc) (hA : A ≠ []) (hB : B ≠ []) :
    joinNl (A ++ B) = joinNl A ++ '\n' :: joinNl B := by
  induction A with
  | nil => exact absurd rfl hA
  | cons a A' ih =>
    cases A' with
    | nil =>
      cases B with
      | nil => exact absurd rfl hB
      | cons b B' => simp [joinNl_cons_cons, joinNl]
    | cons a' A'' =>
      have hih := ih (by simp)
      simp only [List.cons_append] at hih ⊢
      rw [joinNl_cons_cons, joinNl_cons_cons, hih]
      simp [List.append_assoc]

/-- Splitting inverts joining on nonempty newline-free documents. -/
theorem splitOnNl_joinNl (M : Doc) (hM : M ≠ []) (hnl : nlFree M) :
    splitOnNl (joinNl M) = M := by
  induction M with
  | nil => exact absurd rfl hM
  | cons l M' ih =>
    cases M' with
    | nil => exact splitOnNl_of_nlFree l (hnl l (List.mem_cons_self l []))
    | cons m M'' =>
      rw [joinNl_cons_cons, splitOnNl_append_nl,
        splitOnNl_of_nlFree l (hnl l (List.mem_cons_self _ _)),
        ih (by simp) (fun x hx => hnl x (List.mem_cons_of_mem l hx))]
      simp

theorem collapseNlGo_nil (p : Nat) : collapseNlGo p [] = repNl p := rfl

theorem collapseNlGo_cons_nl (p : Nat) (rest : Text) :
    collapseNlGo p ('\n' :: rest) = collapseNlGo (p + 1) rest := by
  simp [collapseNlGo]

theorem collapseNlGo_cons_of_ne (p : Nat) (c : Char) (rest : Text) (hc : c ≠ '\n') :
    collapseNlGo p (c :: rest) = repNl p ++ c :: collapseNlGo 0 rest := by
  simp [collapseNlGo, hc, repNl]

/-- The collapse is the identity on newline-free text (with the pending
run flushed in front). -/
theorem collapseNlGo_of_nlFree (p : Nat) (w : Text) (hw : '\n' ∉ w) :
    collapseNlGo p w = repNl p ++ w := by
  induction w generalizing p with
  | nil => simp [collapseNlGo_nil]
  | cons c w' ih =>
    have hc : c ≠ '\n' := fun h => hw (h ▸ List.mem_cons_self c w')
    have hw' : '\n' ∉ w' := fun h => hw (List.mem_cons_of_mem c h)
    rw [collapseNlGo_cons_of_ne p c w' hc, ih 0 hw']
    simp [repNl]

/-- The collapse distributes over an append whose left part ends in a
character other than a newline: no newline run crosses the boundary. -/
theorem collapseNlGo_append (p : Nat) (a b : Text) (z : Char)
    (hz : a.getLast? = some z) (hnz : z ≠ '\n') :
    collapseNlGo p (a ++ b) = collapseNlGo p a ++ collapseNlGo 0 b := by
  induction a generalizing p with
  | nil => simp at hz
  | cons c a' ih =>
    cases a' with
    | nil =>
      simp only [List.getLast?_singleton, Option.some.injEq] at hz
      subst hz
      rw [List.cons_append, List.nil_append, collapseNlGo_cons_of_ne p c b hnz,
        collapseNlGo_cons_of_ne p c [] hnz, collapseNlGo_nil]
      simp [repNl]
    | cons d a'' =>
      have hz' : (d :: a'').getLast? = some z := by
        rwa [List.getLast?_cons_cons] at hz
      by_cases hc : c = '\n'
      · subst hc
        rw [List.cons_append, collapseNlGo_cons_nl, collapseNlGo_cons_nl, ih _ hz']
      · rw [List.cons_append, collapseNlGo_cons_of_ne _ c _ hc,
          collapseNlGo_cons_of_ne _ c _ hc, ih _ hz']
        simp [List.append_assoc]

/-- A trailing single line after the final newline passes through the
collapse untouched. -/
theorem collapseNlGo_append_last_line (p : Nat) (x u : Text) (hu : u ≠ [])
    (hnl : '\n' ∉ u) :
    collapseNlGo p (x ++ '\n' :: u) = collapseNlGo p (x ++ ['\n']) ++ u := by
  induction x generalizing p with
  | nil =>
    cases u with
    | nil => exact absurd rfl hu
    | cons c u' =>
      have hc : c ≠ '\n' := fun h => hnl (h ▸ List.mem_cons_self c u')
      have hu' : '\n' ∉ u' := fun h => hnl (List.mem_cons_of_mem c h)
      rw [List.nil_append, List.nil_append, collapseNlGo_cons_nl,
        collapseNlGo_cons_nl, collapseNlGo_cons_of_ne _ c _ hc,
        collapseNlGo_of_nlFree 0 u' hu', collapseNlGo_nil]
      simp [repNl]
  | cons c x' ih =>
    by_cases hc : c = '\n'
    · subst hc
      rw [List.cons_append, List.cons_append, collapseNlGo_cons_nl,
        collapseNlGo_cons_nl, ih]
    · rw [List.cons_append, List.cons_append, collapseNlGo_cons_of_ne _ c _ hc,
        collapseNlGo_cons_of_ne _ c _ hc, ih]
      simp [List.append_assoc]

theorem getLast?_replicate_pos {α : Type} (n : Nat) (c : α) (hn : 0 < n) :
    (List.replicate n c).getLast? = some c := by
  induction n with
  | zero => omega
  | succ n ih =>
    cases n with
    | zero => rfl
    | succ m =>
      rw [List.replicate_succ, List.getLast?_cons]
      have := ih (by omega)
      rw [this]
      cases hrep : List.replicate (m + 1) c with
      | nil => simp [List.replicate_succ] at hrep
      | cons a as => simp [hrep ▸ this]

/-- A text ending in a newline still ends in a newline after the
collapse. -/
theorem collapseNlGo_last_nl (p : Nat) (x : Text) :
    (collapseNlGo p (x ++ ['\n'])).getLast? = some '\n' := by
  induction x generalizing p with
  | nil =>
    rw [List.nil_append, collapseNlGo_cons_nl, collapseNlGo_nil]
    refine getLast?_replicate_pos _ _ ?_
    split <;> omega
  | cons c x' ih =>
    by_cases hc : c = '\n'
    · subst hc
      rw [List.cons_append, collapseNlGo_cons_nl]
      exact ih (p + 1)
    · rw [List.cons_append, collapseNlGo_cons_of_ne _ c _ hc]
      have hne : collapseNlGo 0 (x' ++ ['\n']) ≠ [] := by
        intro h
        have := ih 0
        rw [h] at this
        simp at this
      have h2 : (c :: collapseNlGo 0 (x' ++ ['\n'])).getLast? =
          (collapseNlGo 0 (x' ++ ['\n'])).getLast? := by
        cases hcc : collapseNlGo 0 (x' ++ ['\n']) with
        | nil => exact absurd hcc hne
        | cons a as => rw [List.getLast?_cons_cons]
      rw [List.getLast?_append, h2, ih 0]
      rfl

theorem splitOnNl_replicate_nl_append (k : Nat) (x : Text) :
    splitOnNl (List.replicate k '\n' ++ x) = List.replicate k ([] : Text) ++ splitOnNl x := by
  induction k with
  | zero => simp
  | succ k ih =>
    rw [List.replicate_succ, List.cons_append, splitOnNl_cons_nl, ih, List.replicate_succ,
      List.cons_append]

theorem filterNB_append (A B : Doc) : filterNB (A ++ B) = filterNB A ++ filterNB B := by
  simp [filterNB, List.filter_append]

theorem filterNB_cons_nil (t : Doc) : filterNB ([] :: t) = filterNB t := by
  simp [filterNB]

theorem filterNB_cons_of_ne (l : Text) (t : Doc) (hl : l ≠ []) :
    filterNB (l :: t) = l :: filterNB t := by
  simp [filterNB, List.isEmpty_iff, hl]

theorem filterNB_replicate_nil (k : Nat) : filterNB (List.replicate k ([] : Text)) = [] := by
  induction k with
  | zero => rfl
  | succ k ih => rw [List.replicate_succ, filterNB_cons_nil, ih]

/-- With a pending newline, the collapse output starts with a blank line. -/
theorem splitOnNl_collapseNlGo_head_blank (w : Text) (p : Nat) (hp : 1 ≤ p) :
    (splitOnNl (collapseNlGo p w)).headI = ([] : Text) := by
  induction w generalizing p with
  | nil =>
    rw [collapseNlGo_nil, repNl]
    have h1 : (if p ≥ 3 then 2 else p) = Nat.succ ((if p ≥ 3 then 2 else p) - 1) := by
      split <;> omega
    rw [h1, List.replicate_succ, splitOnNl_cons_nl]
    simp [List.headI]
  | cons c w' ih =>
    by_cases hc : c = '\n'
    · subst hc
      rw [collapseNlGo_cons_nl]
      exact ih (p + 1) (by omega)
    · rw [collapseNlGo_cons_of_ne _ c _ hc, repNl]
      have h1 : (if p ≥ 3 then 2 else p) = Nat.succ ((if p ≥ 3 then 2 else p) - 1) := by
        split <;> omega
      rw [h1, List.replicate_succ, List.cons_append, splitOnNl_cons_nl]
      simp [List.headI]

/-- The collapse never changes the first line. -/
theorem splitOnNl_collapseNlGo_head (w : Text) :
    (splitOnNl (collapseNlGo 0 w)).headI = (splitOnNl w).headI := by
  induction w with
  | nil => rfl
  | cons c w' ih =>
    by_cases hc : c = '\n'
    · subst hc
      rw [collapseNlGo_cons_nl, splitOnNl_cons_nl]
      rw [splitOnNl_collapseNlGo_head_blank w' 1 (by omega)]
      simp [List.headI]
    · have hrep : repNl 0 = [] := rfl
      rw [collapseNlGo_cons_of_ne _ c _ hc, hrep, List.nil_append,
        splitOnNl_cons_of_ne _ _ hc, splitOnNl_cons_of_ne _ _ hc,
        List.headI_cons, List.headI_cons, ih]

/-- The collapse preserves the sequence of nonblank lines. -/
theorem filterNB_splitOnNl_collapseNlGo (w : Text) (p : Nat) :
    filterNB (splitOnNl (collapseNlGo p w)) = filterNB (splitOnNl w) := by
  induction w generalizing p with
  | nil =>
    rw [collapseNlGo_nil, repNl]
    have : splitOnNl (List.replicate (if p ≥ 3 then 2 else p) '\n') =
        List.replicate (if p ≥ 3 then 2 else p) ([] : Text) ++ splitOnNl [] := by
      have := splitOnNl_replicate_nl_append (if p ≥ 3 then 2 else p) []
      simpa using this
    rw [this, filterNB_append, filterNB_replicate_nil]
    rfl
  | cons c w' ih =>
    by_cases hc : c = '\n'
    · subst hc
      rw [collapseNlGo_cons_nl, splitOnNl_cons_nl, filterNB_cons_nil]
      exact ih (p + 1)
    · rw [collapseNlGo_cons_of_ne _ c _ hc, repNl, splitOnNl_replicate_nl_append,
        filterNB_append, filterNB_replicate_nil, List.nil_append,
        splitOnNl_cons_of_ne _ _ hc, splitOnNl_cons_of_ne _ _ hc]
      obtain ⟨l, ls, hsp⟩ : ∃ l ls, splitOnNl w' = l :: ls := by
        cases h : splitOnNl w' with
        | nil => exact absurd h (splitOnNl_ne_nil w')
        | cons a b => exact ⟨a, b, rfl⟩
      obtain ⟨l', ls', hsp'⟩ : ∃ l' ls', splitOnNl (collapseNlGo 0 w') = l' :: ls' := by
        cases h : splitOnNl (collapseNlGo 0 w') with
        | nil => exact absurd h (splitOnNl_ne_nil _)
        | cons a b => exact ⟨a, b, rfl⟩
      have hl : l' = l := by
        have := splitOnNl_collapseNlGo_head w'
        rw [hsp, hsp', List.headI_cons, List.headI_cons] at this
        exact this
      have hih := ih 0
      rw [hsp, hsp', hl] at hih ⊢
      simp only [List.headI_cons, List.tail_cons]
      have htl : filterNB ls' = filterNB ls := by
        rcases eq_or_ne l [] with rfl | hlne
        · rwa [filterNB_cons_nil, filterNB_cons_nil] at hih
        · rw [filterNB_cons_of_ne _ _ hlne, filterNB_cons_of_ne _ _ hlne] at hih
          injection hih
      rw [filterNB_cons_of_ne _ _ (by simp), filterNB_cons_of_ne _ _ (by simp), htl]

/-! ## Machinery: first-match indices and trimming -/

theorem findIdx?_append_of_none {α : Type} (p : α → Bool) (A B : List α)
    (h : ∀ a ∈ A, p a = false) :
    (A ++ B).findIdx? p = (B.findIdx? p).map (· + A.length) := by
  induction A with
  | nil => simp
  | cons a A' ih =>
    have ha : p a = false := h a (List.mem_cons_self a A')
    have h' : ∀ x ∈ A', p x = false := fun x hx => h x (List.mem_cons_of_mem a hx)
    rw [List.cons_append, List.findIdx?_cons, ha]
    simp only [Bool.false_eq_true, if_false, List.findIdx?_succ, ih h']
    cases B.findIdx? p with
    | none => rfl
    | some j =>
      simp only [Option.map_some', Option.some.injEq, List.length_cons]
      omega

theorem findIdx?_cons_of_pos {α : Type} (p : α → Bool) (a : α) (l : List α)
    (h : p a = true) : (a :: l).findIdx? p = some 0 := by
  rw [List.findIdx?_cons, h]
  rfl

theorem findIdx?_take_false {α : Type} (p : α → Bool) (L : List α) (i : Nat)
    (h : L.findIdx? p = some i) : ∀ l ∈ L.take i, p l = false := by
  induction L generalizing i with
  | nil => simp
  | cons a L' ih =>
    rw [List.findIdx?_cons] at h
    by_cases ha : p a = true
    · rw [if_pos ha] at h
      injection h with h
      subst h
      simp
    · rw [if_neg ha, List.findIdx?_succ] at h
      cases hfi : L'.findIdx? p with
      | none => rw [hfi] at h; simp at h
      | some j =>
        rw [hfi] at h
        simp only [Option.map_some', Option.some.injEq] at h
        subst h
        intro l hl
        rw [List.take_succ_cons] at hl
        rcases List.mem_cons.mp hl with rfl | hl'
        · simpa using ha
        · exact ih j hfi l hl'

theorem findIdx?_get_true {α : Type} (p : α → Bool) (L : List α) (i : Nat)
    (h : L.findIdx? p = some i) : ∃ x, L.get? i = some x ∧ p x = true := by
  induction L generalizing i with
  | nil => simp at h
  | cons a L' ih =>
    rw [List.findIdx?_cons] at h
    by_cases ha : p a = true
    · rw [if_pos ha] at h
      injection h with h
      subst h
      exact ⟨a, rfl, ha⟩
    · rw [if_neg ha, List.findIdx?_succ] at h
      cases hfi : L'.findIdx? p with
      | none => rw [hfi] at h; simp at h
      | some j =>
        rw [hfi] at h
        simp only [Option.map_some', Option.some.injEq] at h
        subst h
        obtain ⟨x, hx, hpx⟩ := ih j hfi
        exact ⟨x, by simpa [List.get?_cons_succ] using hx, hpx⟩

/-- The head of a `dropWhile` fails the predicate. -/
theorem dropWhile_head_false {α : Type} (p : α → Bool) (L : List α) (c : α) (cs : List α)
    (h : L.dropWhile p = c :: cs) : p c = false := by
  induction L with
  | nil => simp at h
  | cons a L' ih =>
    rw [List.dropWhile_cons] at h
    by_cases ha : p a = true
    · rw [if_pos ha] at h
      exact ih h
    · rw [if_neg ha] at h
      injection h with h1 _
      subst h1
      simpa using ha

/-- Removing an all-whitespace tail before trimming changes nothing. -/
theorem dropWhile_ws_append {y z : Text} (hy : ∀ c ∈ y, jsWs c = true) :
    List.dropWhile jsWs (y ++ z) = List.dropWhile jsWs z := by
  induction y with
  | nil => simp
  | cons c y' ih =>
    rw [List.cons_append, List.dropWhile_cons, if_pos (hy c (List.mem_cons_self c y'))]
    exact ih (fun x hx => hy x (List.mem_cons_of_mem c hx))

theorem trimEndC_append_ws (x y : Text) (hy : ∀ c ∈ y, jsWs c = true) :
    trimEndC (x ++ y) = trimEndC x := by
  unfold trimEndC
  rw [List.reverse_append, dropWhile_ws_append (by simpa using hy)]

theorem trimEndC_of_last_not_ws (x : Text) (c : Char) (hc : x.getLast? = some c)
    (hws : jsWs c = false) : trimEndC x = x := by
  unfold trimEndC
  obtain ⟨r, hr⟩ : ∃ r, x.reverse = c :: r := by
    cases hrev : x.reverse with
    | nil => rw [← List.head?_reverse, hrev] at hc; simp at hc
    | cons a as =>
      rw [← List.head?_reverse, hrev] at hc
      simp only [List.head?_cons, Option.some.injEq] at hc
      subst hc
      exact ⟨as, rfl⟩
  rw [hr, List.dropWhile_cons, if_neg (by simp [hws]), ← hr, List.reverse_reverse]

/-- `trimEndC` yields a prefix of its input. -/
theorem trimEndC_prefix (x : Text) : trimEndC x <+: x := by
  have h : (trimEndC x).reverse <:+ x.reverse := by
    unfold trimEndC
    rw [List.reverse_reverse]
    exact List.dropWhile_suffix jsWs
  exact List.reverse_suffix.mp h

/-- A newline-free segment passes through the collapse. -/
theorem collapseNlGo_nlFree_append (seg z : Text) (h : '\n' ∉ seg) :
    collapseNlGo 0 (seg ++ z) = seg ++ collapseNlGo 0 z := by
  induction seg with
  | nil => simp
  | cons c seg' ih =>
    have hc : c ≠ '\n' := fun hh => h (hh ▸ List.mem_cons_self c seg')
    rw [List.cons_append, collapseNlGo_cons_of_ne _ c _ hc,
      ih (fun hx => h (List.mem_cons_of_mem c hx))]
    rfl

theorem collapse_one_nl (c : Char) (w : Text) (hc : c ≠ '\n') :
    collapseNlGo 0 ('\n' :: c :: w) = '\n' :: collapseNlGo 0 (c :: w) := by
  rw [collapseNlGo_cons_nl, collapseNlGo_cons_of_ne _ c _ hc,
    collapseNlGo_cons_of_ne _ c _ hc]
  rfl

theorem collapse_two_nl (c : Char) (w : Text) (hc : c ≠ '\n') :
    collapseNlGo 0 ('\n' :: '\n' :: c :: w) = '\n' :: '\n' :: collapseNlGo 0 (c :: w) := by
  rw [collapseNlGo_cons_nl, collapseNlGo_cons_nl, collapseNlGo_cons_of_ne _ c _ hc,
    collapseNlGo_cons_of_ne _ c _ hc]
  rfl

theorem collapse_two_nl_nil : collapseNlGo 0 ['\n', '\n'] = ['\n', '\n'] := by
  decide

theorem trimEndC_trimC (x : Text) : trimEndC (trimC x) = trimC x := by
  unfold trimC trimEndC
  rw [List.reverse_reverse, List.dropWhile_idempotent]

/-- A nonempty trimmed text starts with a non-whitespace character. -/
theorem trimC_cons_shape (x : Text) (h : trimC x ≠ []) :
    ∃ c cs, trimC x = c :: cs ∧ jsWs c = false := by
  cases hx : trimC x with
  | nil => exact absurd hx h
  | cons c cs =>
    refine ⟨c, cs, rfl, ?_⟩
    have hpre : trimC x <+: x.dropWhile jsWs := by
      unfold trimC trimStartC
      exact trimEndC_prefix _
    obtain ⟨t, ht⟩ := hpre
    rw [hx, List.cons_append] at ht
    exact dropWhile_head_false jsWs x c (cs ++ t) ht.symm

/-- A nonempty trimmed text ends with a non-whitespace character. -/
theorem trimC_getLast_shape (x : Text) (h : trimC x ≠ []) :
    ∃ z, (trimC x).getLast? = some z ∧ jsWs z = false := by
  refine ⟨(trimC x).getLast h, List.getLast?_eq_getLast _ h, ?_⟩
  have hmem : (trimC x).getLast h ∈ (trimC x).reverse := by
    rw [List.mem_reverse]
    exact List.getLast_mem h
  have hrev : (trimC x).reverse = (trimStartC x).reverse.dropWhile jsWs := by
    unfold trimC trimEndC
    rw [List.reverse_reverse]
  have hhead : (trimC x).reverse.head? = some ((trimC x).getLast h) := by
    rw [List.head?_reverse]
    exact List.getLast?_eq_getLast _ h
  rw [hrev] at hhead
  cases hdw : (trimStartC x).reverse.dropWhile jsWs with
  | nil => rw [hdw] at hhead; simp at hhead
  | cons a as =>
    rw [hdw] at hhead
    simp only [List.head?_cons, Option.some.injEq] at hhead
    rw [← hhead]
    exact dropWhile_head_false jsWs _ a as hdw

/-- The shape of a line passing the `/^##\s+/` test. -/
theorem sectionStart_shape (l : Text) (h : isSectionStartLine l = true) :
    ∃ c t, l = '#' :: '#' :: c :: t ∧ jsWs c = true := by
  unfold isSectionStartLine at h
  split at h
  · exact ⟨_, _, rfl, h⟩
  · simp at h

/-- A staging header line is nonempty. -/
theorem unrel_ne_nil (l : Text) (h : isUnreleasedHeaderLine l = true) : l ≠ [] := by
  intro hl
  subst hl
  simp [isUnreleasedHeaderLine, lowerC] at h

/-- A nonempty join starting from a nonempty first line starts with its
first character. -/
theorem joinNl_cons_head (c : Char) (l : Text) (rest : Doc) :
    ∃ w, joinNl ((c :: l) :: rest) = c :: w := by
  cases rest with
  | nil => exact ⟨l, rfl⟩
  | cons r rs => exact ⟨l ++ '\n' :: joinNl (r :: rs), by rw [joinNl_cons_cons]; rfl⟩

theorem getLast?_joinNl_last (P : Doc) (u : Text) (hu : u ≠ []) :
    (joinNl (P ++ [u])).getLast? = u.getLast? := by
  cases P with
  | nil => rfl
  | cons p P' =>
    rw [joinNl_append (p :: P') [u] (by simp) (by simp)]
    show (joinNl (p :: P') ++ '\n' :: joinNl [u]).getLast? = _
    rw [List.getLast?_append]
    have : ('\n' :: joinNl [u]).getLast? = u.getLast? := by
      show ('\n' :: u).getLast? = u.getLast?
      cases u with
      | nil => exact absurd rfl hu
      | cons a as => rw [List.getLast?_cons_cons]
    rw [this]
    cases hu' : u.getLast? with
    | none =>
      cases u with
      | nil => exact absurd rfl hu
      | cons a as => rw [List.getLast?_eq_getLast _ (by simp)] at hu'; simp at hu'
    | some z => rfl

/-- Splitting the collapse of `joinNl (P ++ [u])` for a nonempty
newline-free final line `u`: the final line survives untouched, and the
nonblank lines in front of it are exactly those of `P`. -/
theorem before_split (P : Doc) (u : Text) (hu_ne : u ≠ []) (hu_nl : '\n' ∉ u)
    (hP_nl : nlFree P) :
    ∃ Q, splitOnNl (collapseNlGo 0 (joinNl (P ++ [u]))) = Q ++ [u] ∧
      filterNB Q = filterNB P := by
  cases P with
  | nil =>
    refine ⟨[], ?_, rfl⟩
    have hbS : collapseNlGo 0 (joinNl ([] ++ [u])) = u := by
      show collapseNlGo 0 u = u
      rw [collapseNlGo_of_nlFree 0 u hu_nl]
      rfl
    rw [hbS, splitOnNl_of_nlFree u hu_nl]
    rfl
  | cons p P' =>
    have hfnb : filterNB (splitOnNl (collapseNlGo 0 (joinNl ((p :: P') ++ [u])))) =
        filterNB (p :: P') ++ [u] := by
      rw [filterNB_splitOnNl_collapseNlGo,
        splitOnNl_joinNl ((p :: P') ++ [u]) (by simp)
          (by
            intro l hl
            rcases List.mem_append.mp hl with hl | hl
            · exact hP_nl l hl
            · rcases List.mem_singleton.mp hl with rfl
              exact hu_nl),
        filterNB_append, filterNB_cons_of_ne u [] hu_ne]
      rfl
    have hbS : joinNl ((p :: P') ++ [u]) = joinNl (p :: P') ++ '\n' :: u := by
      rw [joinNl_append (p :: P') [u] (by simp) (by simp)]
      rfl
    have h1 : collapseNlGo 0 (joinNl ((p :: P') ++ [u])) =
        collapseNlGo 0 (joinNl (p :: P') ++ ['\n']) ++ u := by
      rw [hbS]
      exact collapseNlGo_append_last_line 0 _ u hu_ne hu_nl
    set W := collapseNlGo 0 (joinNl (p :: P') ++ ['\n']) with hW
    have hWlast : W.getLast? = some '\n' := collapseNlGo_last_nl 0 _
    have hWne : W ≠ [] := by
      intro hmt
      rw [hmt] at hWlast
      simp at hWlast
    have hWsplit : W = W.dropLast ++ ['\n'] := by
      have hdl := List.dropLast_append_getLast hWne
      have hgl : W.getLast hWne = '\n' := by
        have hge := List.getLast?_eq_getLast W hWne
        rw [hWlast] at hge
        injection hge with h
        exact h.symm
      rw [← hgl]
      exact hdl.symm
    refine ⟨splitOnNl W.dropLast, ?_, ?_⟩
    · rw [h1]
      conv_lhs => rw [hWsplit]
      rw [List.append_assoc, List.singleton_append, splitOnNl_append_nl,
        splitOnNl_of_nlFree u hu_nl]
    · have h2 : filterNB (splitOnNl W.dropLast ++ [u]) = filterNB (p :: P') ++ [u] := by
        conv_lhs => rw [← splitOnNl_of_nlFree u hu_nl, ← splitOnNl_append_nl,
          ← List.singleton_append, ← List.append_assoc, ← hWsplit, ← h1]
        exact hfnb
      rw [filterNB_append, filterNB_cons_of_ne u [] hu_ne] at h2
      exact List.append_cancel_right h2

/-- The line-level structure of the document rebuilt by the release
cutover: before-part, blank, version header line, collapsed body,
blank, collapsed after-part; the before-part splits into lines `Q`
followed by the staging header `u`, with `Q`'s nonblank lines exactly
those of `P`. -/
theorem rebuild_structure (P : Doc) (u : Text) (VHl CB : Text) (afterL : Doc)
    (hu_ne : u ≠ []) (hu_nl : '\n' ∉ u) (hP_nl : nlFree P)
    (hVH_head : ∃ t, VHl = '#' :: t) (hVH_nl : '\n' ∉ VHl)
    (hCB_head : ∃ c cs, CB = c :: cs ∧ c ≠ '\n')
    (hCB_last : ∃ z, CB.getLast? = some z ∧ z ≠ '\n')
    (hafter : joinNl afterL = [] ∨ ∃ w, joinNl afterL = '#' :: w)
    (S : Text)
    (hS : S = joinNl (P ++ [u]) ++ '\n' :: '\n' ::
        (VHl ++ '\n' :: (CB ++ '\n' :: '\n' :: joinNl afterL))) :
    ∃ Q,
      splitOnNl (collapseNl S) =
        Q ++ u :: [] :: VHl ::
          (splitOnNl (collapseNlGo 0 CB) ++ [] :: splitOnNl (collapseNlGo 0 (joinNl afterL))) ∧
      filterNB Q = filterNB P := by
  obtain ⟨tVH, hVHt⟩ := hVH_head
  obtain ⟨c0, cs0, hCB0, hc0⟩ := hCB_head
  obtain ⟨zB, hzB, hzBne⟩ := hCB_last
  -- last character of the before-part
  have hbS_last : (joinNl (P ++ [u])).getLast? = u.getLast? := getLast?_joinNl_last P u hu_ne
  have hu_last : ∃ z, u.getLast? = some z ∧ z ≠ '\n' := by
    refine ⟨u.getLast hu_ne, List.getLast?_eq_getLast _ hu_ne, ?_⟩
    intro hz
    exact hu_nl (hz ▸ List.getLast_mem hu_ne)
  obtain ⟨z, hz, hzne⟩ := hu_last
  -- collapse of the tail after the before-part
  have htail : collapseNlGo 0 ('\n' :: '\n' ::
      (VHl ++ '\n' :: (CB ++ '\n' :: '\n' :: joinNl afterL))) =
      '\n' :: '\n' ::
        (VHl ++ '\n' :: (collapseNlGo 0 CB ++ '\n' :: '\n' ::
          collapseNlGo 0 (joinNl afterL))) := by
    have hstep6 : collapseNlGo 0 ('\n' :: '\n' :: joinNl afterL) =
        '\n' :: '\n' :: collapseNlGo 0 (joinNl afterL) := by
      rcases hafter with hA | ⟨w, hA⟩
      · rw [hA]
        exact collapse_two_nl_nil
      · rw [hA]
        exact collapse_two_nl '#' w (by decide)
    have hstep5 : collapseNlGo 0 (CB ++ '\n' :: '\n' :: joinNl afterL) =
        collapseNlGo 0 CB ++ '\n' :: '\n' :: collapseNlGo 0 (joinNl afterL) := by
      rw [collapseNlGo_append 0 CB _ zB hzB hzBne, hstep6]
    have hstep4 : collapseNlGo 0 ('\n' :: (CB ++ '\n' :: '\n' :: joinNl afterL)) =
        '\n' :: (collapseNlGo 0 CB ++ '\n' :: '\n' :: collapseNlGo 0 (joinNl afterL)) := by
      rw [hCB0, List.cons_append, collapse_one_nl c0 _ hc0, ← List.cons_append, ← hCB0,
        hstep5]
    have hstep3 : collapseNlGo 0 (VHl ++ '\n' :: (CB ++ '\n' :: '\n' :: joinNl afterL)) =
        VHl ++ '\n' :: (collapseNlGo 0 CB ++ '\n' :: '\n' ::
          collapseNlGo 0 (joinNl afterL)) := by
      rw [collapseNlGo_nlFree_append VHl _ hVH_nl, hstep4]
    calc collapseNlGo 0 ('\n' :: '\n' :: (VHl ++ '\n' :: (CB ++ '\n' :: '\n' :: joinNl afterL)))
        = collapseNlGo 0 ('\n' :: '\n' :: '#' ::
            (tVH ++ '\n' :: (CB ++ '\n' :: '\n' :: joinNl afterL))) := by
          rw [hVHt]; rfl
      _ = '\n' :: '\n' :: collapseNlGo 0 ('#' ::
            (tVH ++ '\n' :: (CB ++ '\n' :: '\n' :: joinNl afterL))) :=
          collapse_two_nl '#' _ (by decide)
      _ = '\n' :: '\n' :: collapseNlGo 0
            (VHl ++ '\n' :: (CB ++ '\n' :: '\n' :: joinNl afterL)) := by
          rw [hVHt]; rfl
      _ = _ := by rw [hstep3]
  -- collapse of the whole document text
  have hcoll : collapseNl S =
      collapseNlGo 0 (joinNl (P ++ [u])) ++ '\n' :: '\n' ::
        (VHl ++ '\n' :: (collapseNlGo 0 CB ++ '\n' :: '\n' ::
          collapseNlGo 0 (joinNl afterL))) := by
    rw [hS]
    unfold collapseNl
    rw [collapseNlGo_append 0 _ _ z (hbS_last.trans hz) hzne, htail]
  obtain ⟨Q, hQ, hQnb⟩ := before_split P u hu_ne hu_nl hP_nl
  refine ⟨Q, ?_, hQnb⟩
  rw [hcoll, splitOnNl_append_nl, splitOnNl_cons_nl, splitOnNl_append_nl,
    splitOnNl_of_nlFree VHl hVH_nl, splitOnNl_append_nl, splitOnNl_cons_nl, hQ]
  simp [List.append_assoc]

theorem get?_append_offset {α : Type} (A X : List α) (k : Nat) :
    (A ++ X).get? (A.length + k) = X.get? k := by
  rw [List.get?_append_right (Nat.le_add_right _ _)]
  congr 1
  omega

/-- C3: the pure core of `releaseUnreleased`.  When the staging
section's trimmed body is empty or whitespace-only (or there is no
staging section at all) the document is returned unchanged and no
extraction is produced.  Otherwise the extraction equals verbatim the
trimmed staged body as it was before the rewrite, and in the resulting
document the staging header line is kept intact (it is the first
staging header, and the same line as before), immediately followed by a
blank line and then the new version section header
`## [<version>] – <date>`, while the staging section's body has been
reset to empty. -/
theorem c3_release_cutover (L : Doc) (v d : Text)
    (hnlL : nlFree L) (hv : '\n' ∉ v) (hd : '\n' ∉ d) :
    (trimC (stagingBody L) = [] → releaseCutover L v d = (L, none)) ∧
    (trimC (stagingBody L) ≠ [] →
      (releaseCutover L v d).2 = some (trimC (stagingBody L)) ∧
      ∃ s s₀,
        (releaseCutover L v d).1.findIdx? isUnreleasedHeaderLine = some s ∧
        L.findIdx? isUnreleasedHeaderLine = some s₀ ∧
        (releaseCutover L v d).1.get? s = L.get? s₀ ∧
        (releaseCutover L v d).1.get? (s + 1) = some ([] : Text) ∧
        (releaseCutover L v d).1.get? (s + 2) =
          some (lc "## [" ++ v ++ lc "] – " ++ d) ∧
        stagingBody (releaseCutover L v d).1 = []) := by
  cases hcap : captureUnreleased L with
  | none =>
    have hsb : stagingBody L = [] := by unfold stagingBody; rw [hcap]
    constructor
    · intro _
      unfold releaseCutover
      rw [hcap]
    · intro h1
      exact absurd (by rw [hsb]; rfl) h1
  | some se =>
    obtain ⟨s, e⟩ := se
    have hsb : stagingBody L = joinNl ((L.drop (s + 1)).take (e - (s + 1))) := by
      unfold stagingBody
      rw [hcap]
    constructor
    · intro h0
      rw [hsb] at h0
      simp [releaseCutover, hcap, h0]
    · intro h1
      rw [hsb] at h1
      have hclean : trimEndC (trimC (joinNl ((L.drop (s + 1)).take (e - (s + 1))))) =
          trimC (joinNl ((L.drop (s + 1)).take (e - (s + 1)))) := trimEndC_trimC _
      have hRC : releaseCutover L v d =
          (splitOnNl (collapseNl (joinNl
            [joinNl (L.take (s + 1)), [],
             (lc "## [" ++ v ++ lc "] – " ++ d ++ ['\n']) ++
               trimC (joinNl ((L.drop (s + 1)).take (e - (s + 1)))) ++ ['\n'],
             joinNl (L.drop e)])),
           some (trimC (joinNl ((L.drop (s + 1)).take (e - (s + 1)))))) := by
        simp only [releaseCutover, hcap]
        rw [if_neg (by rw [List.isEmpty_iff]; exact h1), hclean]
      -- facts from the capture
      have hcapfacts : L.findIdx? isUnreleasedHeaderLine = some s ∧
          ((e = L.length ∧ (L.drop (s + 1)).findIdx? isSectionStartLine = none) ∨
           ∃ j, (L.drop (s + 1)).findIdx? isSectionStartLine = some j ∧ e = s + 1 + j) := by
        unfold captureUnreleased at hcap
        split at hcap
        next => exact absurd hcap (by simp)
        next st hf =>
          split at hcap
          next hg =>
            simp only [Option.some.injEq, Prod.mk.injEq] at hcap
            obtain ⟨hst, he⟩ := hcap
            subst hst
            exact ⟨hf, Or.inl ⟨he.symm, hg⟩⟩
          next j hg =>
            simp only [Option.some.injEq, Prod.mk.injEq] at hcap
            obtain ⟨hst, he⟩ := hcap
            subst hst
            exact ⟨hf, Or.inr ⟨j, hg, he.symm⟩⟩
      obtain ⟨hfind, hendcase⟩ := hcapfacts
      obtain ⟨u, hu_get, hu_p⟩ := findIdx?_get_true _ L s hfind
      have hu_ne : u ≠ [] := unrel_ne_nil u hu_p
      have hu_nl : '\n' ∉ u := hnlL u (List.get?_mem hu_get)
      have htake : L.take (s + 1) = L.take s ++ [u] := by
        rw [List.take_succ]
        have hel : L[s]? = some u := by rw [← List.get?_eq_getElem?]; exact hu_get
        rw [hel]
        rfl
      -- the after-part is empty or starts with a section line
      have hafter : joinNl (L.drop e) = [] ∨ ∃ w, joinNl (L.drop e) = '#' :: w := by
        rcases hendcase with ⟨he, _⟩ | ⟨j, hg, he⟩
        · left
          rw [he, List.drop_length]
          rfl
        · right
          obtain ⟨a0, ha0_get, ha0_p⟩ := findIdx?_get_true _ _ j hg
          obtain ⟨c, t, ha0shape, _⟩ := sectionStart_shape a0 ha0_p
          have hdd : L.drop e = (L.drop (s + 1)).drop j := by
            rw [List.drop_drop, he]
          have hhead : (L.drop e).head? = some a0 := by
            rw [hdd, List.head?_drop, ← List.get?_eq_getElem?]
            exact ha0_get
          cases hAD : L.drop e with
          | nil => rw [hAD] at hhead; simp at hhead
          | cons b rest =>
            rw [hAD] at hhead
            simp only [List.head?_cons, Option.some.injEq] at hhead
            subst hhead
            rw [ha0shape]
            exact joinNl_cons_head '#' _ rest
      -- the trimmed body is a nonempty chunk with non-newline boundary characters
      obtain ⟨c0, cs0, hc0eq, hc0ws⟩ := trimC_cons_shape (joinNl ((L.drop (s + 1)).take (e - (s + 1)))) h1
      obtain ⟨zB, hzBeq, hzBws⟩ := trimC_getLast_shape (joinNl ((L.drop (s + 1)).take (e - (s + 1)))) h1
      have hP_nl : nlFree (L.take s) := fun l hl => hnlL l (List.take_subset s L hl)
      have hsplitlit : lc "## [" = '#' :: '#' :: ' ' :: ['['] := by decide
      have hVH_head : ∃ t, (lc "## [" ++ v ++ lc "] – " ++ d) = '#' :: t := by
        refine ⟨'#' :: ' ' :: '[' :: (v ++ lc "] – " ++ d), ?_⟩
        rw [hsplitlit]
        simp
      have hVH_nl : '\n' ∉ (lc "## [" ++ v ++ lc "] – " ++ d) := by
        intro hmem
        simp only [List.mem_append] at hmem
        rcases hmem with ((h | h) | h) | h
        · exact absurd h (by decide)
        · exact hv h
        · exact absurd h (by decide)
        · exact hd h
      have hj4 : ∀ a b c dd : Text, joinNl [a, b, c, dd] =
          a ++ '\n' :: (b ++ '\n' :: (c ++ '\n' :: dd)) := fun a b c dd => rfl
      obtain ⟨Q, hQ, hQnb⟩ := rebuild_structure (L.take s) u
        (lc "## [" ++ v ++ lc "] – " ++ d)
        (trimC (joinNl ((L.drop (s + 1)).take (e - (s + 1)))))
        (L.drop e) hu_ne hu_nl hP_nl hVH_head hVH_nl
        ⟨c0, cs0, hc0eq, fun hcc => by rw [hcc] at hc0ws; exact absurd hc0ws (by decide)⟩
        ⟨zB, hzBeq, fun hcc => by rw [hcc] at hzBws; exact absurd hzBws (by decide)⟩
        hafter
        (joinNl [joinNl (L.take (s + 1)), [],
          (lc "## [" ++ v ++ lc "] – " ++ d ++ ['\n']) ++
            trimC (joinNl ((L.drop (s + 1)).take (e - (s + 1)))) ++ ['\n'],
          joinNl (L.drop e)])
        (by rw [hj4, htake]; simp [List.append_assoc])
      have hRD : (releaseCutover L v d).1 = Q ++ u :: [] ::
          (lc "## [" ++ v ++ lc "] – " ++ d) ::
          (splitOnNl (collapseNlGo 0 (trimC (joinNl ((L.drop (s + 1)).take (e - (s + 1)))))) ++
            [] :: splitOnNl (collapseNlGo 0 (joinNl (L.drop e)))) := by
        rw [hRC]
        exact hQ
      set TAIL := splitOnNl (collapseNlGo 0 (trimC (joinNl ((L.drop (s + 1)).take (e - (s + 1)))))) ++
        [] :: splitOnNl (collapseNlGo 0 (joinNl (L.drop e))) with hTAIL
      have hQfalse : ∀ l ∈ Q, isUnreleasedHeaderLine l = false := by
        intro l hl
        by_cases hle : l = []
        · subst hle
          decide
        · have h3 : l ∈ filterNB Q := by
            refine List.mem_filter.mpr ⟨hl, ?_⟩
            simp [List.isEmpty_iff, hle]
          rw [hQnb] at h3
          exact findIdx?_take_false _ L s hfind l (List.mem_filter.mp h3).1
      have hfri : (Q ++ u :: [] :: (lc "## [" ++ v ++ lc "] – " ++ d) :: TAIL).findIdx?
          isUnreleasedHeaderLine = some Q.length := by
        rw [findIdx?_append_of_none _ Q _ hQfalse, findIdx?_cons_of_pos _ u _ hu_p]
        simp
      have h_at0 : (Q ++ u :: [] :: (lc "## [" ++ v ++ lc "] – " ++ d) :: TAIL).get?
          Q.length = some u := by
        have h := get?_append_offset Q (u :: [] :: (lc "## [" ++ v ++ lc "] – " ++ d) :: TAIL) 0
        simpa using h
      have h_at1 : (Q ++ u :: [] :: (lc "## [" ++ v ++ lc "] – " ++ d) :: TAIL).get?
          (Q.length + 1) = some ([] : Text) :=
        get?_append_offset Q (u :: [] :: (lc "## [" ++ v ++ lc "] – " ++ d) :: TAIL) 1
      have h_at2 : (Q ++ u :: [] :: (lc "## [" ++ v ++ lc "] – " ++ d) :: TAIL).get?
          (Q.length + 2) = some (lc "## [" ++ v ++ lc "] – " ++ d) :=
        get?_append_offset Q (u :: [] :: (lc "## [" ++ v ++ lc "] – " ++ d) :: TAIL) 2
      have hsectVH : isSectionStartLine (lc "## [" ++ v ++ lc "] – " ++ d) = true := by
        obtain ⟨t, ht⟩ := hVH_head
        have ht2 : lc "## [" ++ v ++ lc "] – " ++ d = '#' :: '#' :: ' ' ::
            ('[' :: (v ++ lc "] – " ++ d)) := by
          rw [hsplitlit]
          simp
        rw [ht2]
        simp [isSectionStartLine, jsWs]
      have hdropRD : (Q ++ u :: [] :: (lc "## [" ++ v ++ lc "] – " ++ d) :: TAIL).drop
          (Q.length + 1) = [] :: (lc "## [" ++ v ++ lc "] – " ++ d) :: TAIL := by
        have h : (Q ++ u :: [] :: (lc "## [" ++ v ++ lc "] – " ++ d) :: TAIL).drop
            (Q.length + 1) =
            (u :: [] :: (lc "## [" ++ v ++ lc "] – " ++ d) :: TAIL).drop 1 :=
          List.drop_append 1
        simpa using h
      have hfsect : (([] : Text) :: (lc "## [" ++ v ++ lc "] – " ++ d) :: TAIL).findIdx?
          isSectionStartLine = some 1 := by
        rw [List.findIdx?_cons, if_neg (by decide), List.findIdx?_cons, if_pos hsectVH]
      have hcapRD : captureUnreleased
          (Q ++ u :: [] :: (lc "## [" ++ v ++ lc "] – " ++ d) :: TAIL) =
          some (Q.length, Q.length + 2) := by
        simp only [captureUnreleased, hfri, hdropRD, hfsect]
      have hsbRD : stagingBody
          (Q ++ u :: [] :: (lc "## [" ++ v ++ lc "] – " ++ d) :: TAIL) = [] := by
        have harith : Q.length + 2 - (Q.length + 1) = 1 := by omega
        simp only [stagingBody, hcapRD, hdropRD, harith]
        rfl
      refine ⟨?_, Q.length, s, ?_, hfind, ?_, ?_, ?_, ?_⟩
      · rw [hRC, hsb]
      · rw [hRD]
        exact hfri
      · rw [hRD, h_at0, hu_get]
      · rw [hRD]
        exact h_at1
      · rw [hRD]
        exact h_at2
      · rw [hRD]
        exact hsbRD

/-- Witness for C3: on a concrete changelog with a non-empty staging body,
cutover to version `0.2.0` dated `2024-02-02` extracts the trimmed staged
content, keeps the staging header, and places the new version header two
lines below it, leaving the staging body empty. -/
theorem c3_witness :
    trimC (stagingBody docC3) ≠ [] ∧
    ((trimC (stagingBody docC3) = [] →
        releaseCutover docC3 (lc "0.2.0") (lc "2024-02-02") = (docC3, none)) ∧
     (trimC (stagingBody docC3) ≠ [] →
        (releaseCutover docC3 (lc "0.2.0") (lc "2024-02-02")).2 =
          some (trimC (stagingBody docC3)) ∧
        ∃ s s₀,
          (releaseCutover docC3 (lc "0.2.0") (lc "2024-02-02")).1.findIdx?
            isUnreleasedHeaderLine = some s ∧
          docC3.findIdx? isUnreleasedHeaderLine = some s₀ ∧
          (releaseCutover docC3 (lc "0.2.0") (lc "2024-02-02")).1.get? s =
            docC3.get? s₀ ∧
          (releaseCutover docC3 (lc "0.2.0") (lc "2024-02-02")).1.get? (s + 1) =
            some ([] : Text) ∧
          (releaseCutover docC3 (lc "0.2.0") (lc "2024-02-02")).1.get? (s + 2) =
            some (lc "## [" ++ lc "0.2.0" ++ lc "] – " ++ lc "2024-02-02") ∧
          stagingBody (releaseCutover docC3 (lc "0.2.0") (lc "2024-02-02")).1 = [])) :=
  ⟨by decide,
   c3_release_cutover docC3 (lc "0.2.0") (lc "2024-02-02")
     (by unfold nlFree; decide) (by decide) (by decide)⟩

/-! ## Machinery: end-trimming across appends, and line membership -/

/-- `dropWhile` over an append when the left part survives. -/
theorem dropWhile_append_ne_nil {α : Type} (p : α → Bool) (xs ys : List α)
    (h : xs.dropWhile p ≠ []) :
    (xs ++ ys).dropWhile p = xs.dropWhile p ++ ys := by
  induction xs with
  | nil => exact absurd rfl h
  | cons a l ih =>
    by_cases hp : p a = true
    · have h' : l.dropWhile p ≠ [] := by
        intro h0
        apply h
        rw [List.dropWhile_cons, if_pos hp, h0]
      rw [List.cons_append, List.dropWhile_cons, if_pos hp,
        List.dropWhile_cons, if_pos hp]
      exact ih h'
    · rw [List.cons_append, List.dropWhile_cons, if_neg hp,
        List.dropWhile_cons, if_neg hp, List.cons_append]

/-- Trimming the end of `y ++ z` only touches `z` when `z` keeps content. -/
theorem trimEndC_append_left (y z : Text) (hz : trimEndC z ≠ []) :
    trimEndC (y ++ z) = y ++ trimEndC z := by
  have hdz : z.reverse.dropWhile jsWs ≠ [] := by
    intro h0
    apply hz
    unfold trimEndC
    rw [h0]
    rfl
  unfold trimEndC
  rw [List.reverse_append, dropWhile_append_ne_nil jsWs z.reverse y.reverse hdz,
    List.reverse_append, List.reverse_reverse]

/-- A text whose end-trim is empty is all whitespace. -/
theorem all_ws_of_trimEndC_nil (w : Text) (h : trimEndC w = []) :
    ∀ ch ∈ w, jsWs ch = true := by
  intro ch hch
  unfold trimEndC at h
  have h0 : w.reverse.dropWhile jsWs = [] := by
    rwa [List.reverse_eq_nil_iff] at h
  exact List.dropWhile_eq_nil_iff.mp h0 ch (List.mem_reverse.mpr hch)

/-- An all-whitespace line fixed by end-trimming is empty. -/
theorem eq_nil_of_tf_all_ws (l : Text) (htf : trimEndC l = l)
    (hws : ∀ ch ∈ l, jsWs ch = true) : l = [] := by
  have h0 : l.reverse.dropWhile jsWs = [] :=
    List.dropWhile_eq_nil_iff.mpr (fun x hx => hws x (List.mem_reverse.mp hx))
  rw [← htf]
  unfold trimEndC
  rw [h0]
  rfl

/-- A character of a line is a character of the joined text. -/
theorem mem_joinNl_of_mem (ch : Char) (l : Text) (M : Doc) :
    l ∈ M → ch ∈ l → ch ∈ joinNl M := by
  induction M with
  | nil => intro hl _; exact absurd hl (List.not_mem_nil l)
  | cons a M' ih =>
    intro hl hc
    cases M' with
    | nil =>
      rcases List.mem_cons.mp hl with rfl | h
      · exact hc
      · exact absurd h (List.not_mem_nil l)
    | cons b M'' =>
      rw [joinNl_cons_cons]
      rcases List.mem_cons.mp hl with rfl | h
      · exact List.mem_append.mpr (Or.inl hc)
      · exact List.mem_append.mpr (Or.inr (List.mem_cons_of_mem _ (ih h hc)))

/-- Splitting the join keeps the nonblank lines (also for the empty
document, whose join splits into a single blank line). -/
theorem filterNB_splitOnNl_joinNl (M : Doc) (hnl : nlFree M) :
    filterNB (splitOnNl (joinNl M)) = filterNB M := by
  rcases eq_or_ne M [] with rfl | hM
  · rfl
  · rw [splitOnNl_joinNl M hM hnl]

/-- A line of the splitting of the join is a line of the document or blank. -/
theorem mem_splitOnNl_joinNl (M : Doc) (hnl : nlFree M) (l : Text)
    (hl : l ∈ splitOnNl (joinNl M)) : l ∈ M ∨ l = [] := by
  rcases eq_or_ne M [] with rfl | hne
  · have h0 : splitOnNl (joinNl ([] : Doc)) = [[]] := rfl
    rw [h0] at hl
    exact Or.inr (List.mem_singleton.mp hl)
  · rw [splitOnNl_joinNl M hne hnl] at hl
    exact Or.inl hl

/-- End-trimming the joined document deletes only blank lines at the
end when every line is itself end-trim fixed: the nonblank lines
survive unchanged. -/
theorem filterNB_splitOnNl_trimEndC_joinNl (M : Doc) :
    M ≠ [] → nlFree M → trimEndFixed M →
    filterNB (splitOnNl (trimEndC (joinNl M))) = filterNB M := by
  induction M with
  | nil => intro h _ _; exact absurd rfl h
  | cons x M' ih =>
    intro _ hnl htf
    cases M' with
    | nil =>
      have hx : trimEndC x = x := htf x (List.mem_cons_self _ _)
      show filterNB (splitOnNl (trimEndC (joinNl [x]))) = filterNB [x]
      have hj : joinNl [x] = x := rfl
      rw [hj, hx, splitOnNl_of_nlFree x (hnl x (List.mem_cons_self _ _))]
    | cons y M'' =>
      have hnl' : nlFree (y :: M'') := fun l hl => hnl l (List.mem_cons_of_mem _ hl)
      have htf' : trimEndFixed (y :: M'') := fun l hl => htf l (List.mem_cons_of_mem _ hl)
      have hx_nl : '\n' ∉ x := hnl x (List.mem_cons_self _ _)
      have hjoin : joinNl (x :: y :: M'') = x ++ '\n' :: joinNl (y :: M'') :=
        joinNl_cons_cons x y M''
      by_cases hz : trimEndC (joinNl (y :: M'')) = []
      · have hws : ∀ ch ∈ joinNl (y :: M''), jsWs ch = true :=
          all_ws_of_trimEndC_nil _ hz
        have hallnil : ∀ l ∈ (y :: M''), l = [] := by
          intro l hl
          exact eq_nil_of_tf_all_ws l (htf' l hl)
            (fun ch hch => hws ch (mem_joinNl_of_mem ch l _ hl hch))
        have hfnb' : filterNB (y :: M'') = [] := by
          unfold filterNB
          rw [List.filter_eq_nil_iff]
          intro a ha
          rw [hallnil a ha]
          decide
        have htrim : trimEndC (joinNl (x :: y :: M'')) = x := by
          rw [hjoin,
            trimEndC_append_ws x ('\n' :: joinNl (y :: M''))
              (by
                intro ch hch
                rcases List.mem_cons.mp hch with rfl | hch
                · decide
                · exact hws ch hch),
            htf x (List.mem_cons_self _ _)]
        rw [htrim, splitOnNl_of_nlFree x hx_nl,
          show (x :: y :: M'' : Doc) = [x] ++ (y :: M'') from rfl,
          filterNB_append, hfnb', List.append_nil]
      · have htrim : trimEndC (joinNl (x :: y :: M'')) =
            x ++ '\n' :: trimEndC (joinNl (y :: M'')) := by
          rw [hjoin,
            show x ++ '\n' :: joinNl (y :: M'') = (x ++ ['\n']) ++ joinNl (y :: M'')
              from by simp,
            trimEndC_append_left _ _ hz]
          simp
        rw [htrim, splitOnNl_append_nl, splitOnNl_of_nlFree x hx_nl,
          filterNB_append, ih (by simp) hnl' htf',
          show (x :: y :: M'' : Doc) = [x] ++ (y :: M'') from rfl, filterNB_append]

/-! ## Machinery: the inserted line list of the found-category branch -/

/-- The padded line list of the found-category branch is nonempty. -/
theorem lines3_ne_nil (A B : Doc) (b : Text) :
    (if (A ++ b :: B).getLast? == some ([] : Text) then A ++ b :: B
     else (A ++ b :: B) ++ [[]]) ≠ [] := by
  split
  · simp
  · simp

/-- Membership in the padded line list of the found-category branch. -/
theorem lines3_mem (A B : Doc) (b l : Text)
    (hl : l ∈ (if (A ++ b :: B).getLast? == some ([] : Text) then A ++ b :: B
               else (A ++ b :: B) ++ [[]])) :
    l ∈ A ∨ l = b ∨ l ∈ B ∨ l = [] := by
  have hmem : l ∈ A ++ b :: B → l ∈ A ∨ l = b ∨ l ∈ B ∨ l = [] := by
    intro h
    rcases List.mem_append.mp h with h | h
    · exact Or.inl h
    · rcases List.mem_cons.mp h with rfl | h
      · exact Or.inr (Or.inl rfl)
      · exact Or.inr (Or.inr (Or.inl h))
  split at hl
  · exact hmem hl
  · rcases List.mem_append.mp hl with h | h
    · exact hmem h
    · exact Or.inr (Or.inr (Or.inr (List.mem_singleton.mp h)))

/-- Nonblank lines of the padded line list of the found-category branch. -/
theorem filterNB_lines3 (A B : Doc) (b : Text) (hb : b ≠ []) :
    filterNB (if (A ++ b :: B).getLast? == some ([] : Text) then A ++ b :: B
              else (A ++ b :: B) ++ [[]]) = filterNB A ++ b :: filterNB B := by
  split
  · rw [filterNB_append, filterNB_cons_of_ne _ _ hb]
  · rw [filterNB_append, filterNB_append, filterNB_cons_of_ne _ _ hb,
      show filterNB [([] : Text)] = [] from rfl, List.append_nil]

/-- The found-category branch after end-trimming, at the level of
nonblank lines: the new bullet sits between the old lines. -/
theorem filterNB_trimEnd_join_lines3 (A B : Doc) (b : Text)
    (hb_ne : b ≠ []) (hb_nl : '\n' ∉ b) (hb_tf : trimEndC b = b)
    (hA : ∀ l ∈ A, '\n' ∉ l ∧ trimEndC l = l)
    (hB : ∀ l ∈ B, '\n' ∉ l ∧ trimEndC l = l) :
    filterNB (splitOnNl (trimEndC (joinNl
      (if (A ++ b :: B).getLast? == some ([] : Text) then A ++ b :: B
       else (A ++ b :: B) ++ [[]])))) = filterNB A ++ b :: filterNB B := by
  have hM3nl : ∀ l ∈ (if (A ++ b :: B).getLast? == some ([] : Text) then A ++ b :: B
      else (A ++ b :: B) ++ [[]]), '\n' ∉ l := by
    intro l hl
    rcases lines3_mem A B b l hl with h | rfl | h | rfl
    · exact (hA l h).1
    · exact hb_nl
    · exact (hB l h).1
    · exact List.not_mem_nil _
  have hM3tf : ∀ l ∈ (if (A ++ b :: B).getLast? == some ([] : Text) then A ++ b :: B
      else (A ++ b :: B) ++ [[]]), trimEndC l = l := by
    intro l hl
    rcases lines3_mem A B b l hl with h | rfl | h | rfl
    · exact (hA l h).2
    · exact hb_tf
    · exact (hB l h).2
    · rfl
  rw [filterNB_splitOnNl_trimEndC_joinNl _ (lines3_ne_nil A B b) hM3nl hM3tf,
    filterNB_lines3 A B b hb_ne]

/-- `insertIntoUnreleasedCategory` when the category header is found at
line `i`: the nonblank lines of the end-trimmed result are the old
lines with the bullet inserted after the header and its trailing blank
run. -/
theorem insert_found_filterNB (body c b : Text) (i : Nat)
    (hnlV : ∀ l ∈ splitOnNl body, '\n' ∉ l)
    (htfV : ∀ l ∈ splitOnNl body, trimEndC l = l)
    (hb_ne : b ≠ []) (hb_nl : '\n' ∉ b) (hb_tf : trimEndC b = b)
    (hfound : (splitOnNl body).findIdx?
        (fun l => lowerC (trimC l) == lowerC (trimC (lc "### " ++ c))) = some i) :
    filterNB (splitOnNl (trimEndC (insertIntoUnreleasedCategory body c b))) =
      filterNB ((splitOnNl body).take (i + 1 + (((splitOnNl body).drop
        (i + 1)).takeWhile (fun l => (trimC l).isEmpty)).length)) ++
      b :: filterNB ((splitOnNl body).drop (i + 1 + (((splitOnNl body).drop
        (i + 1)).takeWhile (fun l => (trimC l).isEmpty)).length)) := by
  simp only [insertIntoUnreleasedCategory, hfound]
  exact filterNB_trimEnd_join_lines3 _ _ b hb_ne hb_nl hb_tf
    (fun l hl => ⟨hnlV l (List.take_subset _ _ hl), htfV l (List.take_subset _ _ hl)⟩)
    (fun l hl => ⟨hnlV l (List.drop_subset _ _ hl), htfV l (List.drop_subset _ _ hl)⟩)

/-- Lines of `insertUnreleased t` come from `t` or from the inserted
staging block. -/
theorem mem_insertUnreleased (t : Doc) (l : Text) (hl : l ∈ insertUnreleased t) :
    l ∈ t ∨ l = lc "## [Unreleased]" ∨ l = [] := by
  unfold insertUnreleased at hl
  split at hl
  · exact Or.inl hl
  · split at hl
    · rcases List.mem_append.mp hl with h | h
      · rcases List.mem_append.mp h with h | h
        · exact Or.inl (List.take_subset _ _ h)
        · rcases List.mem_cons.mp h with rfl | h
          · exact Or.inr (Or.inl rfl)
          · rcases List.mem_cons.mp h with rfl | h
            · exact Or.inr (Or.inr rfl)
            · exact Or.inr (Or.inr (List.mem_singleton.mp h))
      · exact Or.inl (List.drop_subset _ _ h)
    · rcases List.mem_append.mp hl with h | h
      · exact Or.inl h
      · rcases List.mem_cons.mp h with rfl | h
        · exact Or.inr (Or.inl rfl)
        · rcases List.mem_cons.mp h with rfl | h
          · exact Or.inr (Or.inr rfl)
          · exact Or.inr (Or.inr (List.mem_singleton.mp h))

/-- Lines of the normalized document come from the input, the header
template, or the inserted staging block. -/
theorem mem_ensure (L : Doc) (l : Text) (hl : l ∈ ensureHeaderAndUnreleased L) :
    l ∈ L ∨ l ∈ headerLines ∨ l = lc "## [Unreleased]" ∨ l = [] := by
  have hl' : l ∈ insertUnreleased (if hasChangelogHeader L then L else headerLines ++ L) :=
    hl
  rcases mem_insertUnreleased _ l hl' with h | h | h
  · split at h
    · exact Or.inl h
    · rcases List.mem_append.mp h with h | h
      · exact Or.inr (Or.inl h)
      · exact Or.inl h
  · exact Or.inr (Or.inr (Or.inl h))
  · exact Or.inr (Or.inr (Or.inr h))

/-- Normalization keeps the document newline-free per line. -/
theorem ensure_nlFree (L : Doc) (h : nlFree L) :
    nlFree (ensureHeaderAndUnreleased L) := by
  intro l hl
  rcases mem_ensure L l hl with h1 | h1 | h1 | h1
  · exact h l h1
  · exact (by decide : ∀ x ∈ headerLines, '\n' ∉ x) l h1
  · subst h1; decide
  · subst h1; decide

/-- Normalization keeps every line end-trim fixed. -/
theorem ensure_trimEndFixed (L : Doc) (h : trimEndFixed L) :
    trimEndFixed (ensureHeaderAndUnreleased L) := by
  intro l hl
  rcases mem_ensure L l hl with h1 | h1 | h1 | h1
  · exact h l h1
  · exact (by decide : ∀ x ∈ headerLines, trimEndC x = x) l h1
  · subst h1; decide
  · subst h1; decide

/-- `joinNl` on the four-part rebuild list. -/
theorem joinNl_four (a t d : Text) :
    joinNl [a, t, [], d] = a ++ '\n' :: (t ++ '\n' :: '\n' :: d) := rfl

/-- C2 (corrected): inserting one entry whose category block already
exists preserves, at the level of nonblank lines (blank-line runs are
collapsed and trailing whitespace trimmed by the rebuild), the content
and relative order of everything else: the lines before the staging
header, the staging lines before the insertion point (the matching
category header and its trailing blank run), the remaining staging
lines (other category blocks), and the version sections after the
staging section, with only the new bullet inserted. -/
theorem c2_insert_frame (L : Doc) (c b : Text) (s e i : Nat)
    (hnlL : nlFree L) (htfL : trimEndFixed L)
    (hb_ne : b ≠ []) (hb_nl : '\n' ∉ b) (hb_tf : trimEndC b = b)
    (hcap : captureUnreleased (ensureHeaderAndUnreleased L) = some (s, e))
    (hfound : (splitOnNl (stagingBody (ensureHeaderAndUnreleased L))).findIdx?
        (fun l => lowerC (trimC l) == lowerC (trimC (lc "### " ++ c))) = some i) :
    filterNB (addEntryCore L c b) =
      filterNB ((ensureHeaderAndUnreleased L).take (s + 1)) ++
      filterNB ((splitOnNl (stagingBody (ensureHeaderAndUnreleased L))).take
        (i + 1 + (((splitOnNl (stagingBody (ensureHeaderAndUnreleased L))).drop
          (i + 1)).takeWhile (fun l => (trimC l).isEmpty)).length)) ++
      b :: filterNB ((splitOnNl (stagingBody (ensureHeaderAndUnreleased L))).drop
        (i + 1 + (((splitOnNl (stagingBody (ensureHeaderAndUnreleased L))).drop
          (i + 1)).takeWhile (fun l => (trimC l).isEmpty)).length)) ++
      filterNB ((ensureHeaderAndUnreleased L).drop e) := by
  have hE_nl : nlFree (ensureHeaderAndUnreleased L) := ensure_nlFree L hnlL
  have hE_tf : trimEndFixed (ensureHeaderAndUnreleased L) := ensure_trimEndFixed L htfL
  have hbody : stagingBody (ensureHeaderAndUnreleased L) =
      joinNl (((ensureHeaderAndUnreleased L).drop (s + 1)).take (e - (s + 1))) := by
    simp only [stagingBody, hcap]
  rw [hbody] at hfound ⊢
  have hU_nl : nlFree (((ensureHeaderAndUnreleased L).drop (s + 1)).take (e - (s + 1))) :=
    fun l hl => hE_nl l (List.drop_subset _ _ (List.take_subset _ _ hl))
  have hU_tf : trimEndFixed (((ensureHeaderAndUnreleased L).drop (s + 1)).take
      (e - (s + 1))) :=
    fun l hl => hE_tf l (List.drop_subset _ _ (List.take_subset _ _ hl))
  have hV_nl : ∀ l ∈ splitOnNl (joinNl (((ensureHeaderAndUnreleased L).drop
      (s + 1)).take (e - (s + 1)))), '\n' ∉ l := by
    intro l hl
    rcases mem_splitOnNl_joinNl _ hU_nl l hl with h | rfl
    · exact hU_nl l h
    · exact List.not_mem_nil _
  have hV_tf : ∀ l ∈ splitOnNl (joinNl (((ensureHeaderAndUnreleased L).drop
      (s + 1)).take (e - (s + 1)))), trimEndC l = l := by
    intro l hl
    rcases mem_splitOnNl_joinNl _ hU_nl l hl with h | rfl
    · exact hU_tf l h
    · rfl
  have hR : addEntryCore L c b =
      splitOnNl (collapseNl (joinNl
        [joinNl ((ensureHeaderAndUnreleased L).take (s + 1)),
         trimEndC (insertIntoUnreleasedCategory
           (joinNl (((ensureHeaderAndUnreleased L).drop (s + 1)).take (e - (s + 1)))) c b),
         [],
         joinNl ((ensureHeaderAndUnreleased L).drop e)])) := by
    simp only [addEntryCore, replaceUnreleasedSection, hcap]
  rw [hR]
  simp only [collapseNl]
  rw [filterNB_splitOnNl_collapseNlGo, joinNl_four, splitOnNl_append_nl,
    splitOnNl_append_nl, splitOnNl_cons_nl, filterNB_append, filterNB_append,
    filterNB_cons_nil,
    filterNB_splitOnNl_joinNl _ (fun l hl => hE_nl l (List.take_subset _ _ hl)),
    filterNB_splitOnNl_joinNl _ (fun l hl => hE_nl l (List.drop_subset _ _ hl)),
    insert_found_filterNB _ c b i hV_nl hV_tf hb_ne hb_nl hb_tf hfound]
  simp [List.append_assoc]

/-- Witness for the corrected C2 at a concrete document: inserting
`- b (#56)` into the existing `Fixes` block keeps every other nonblank
line in place. -/
theorem c2_witness :
    nlFree docC2w ∧ trimEndFixed docC2w ∧
    captureUnreleased (ensureHeaderAndUnreleased docC2w) = some (2, 6) ∧
    (splitOnNl (stagingBody (ensureHeaderAndUnreleased docC2w))).findIdx?
      (fun l => lowerC (trimC l) == lowerC (trimC (lc "### " ++ lc "Fixes"))) = some 0 ∧
    filterNB (addEntryCore docC2w (lc "Fixes") (lc "- b (#56)")) =
      filterNB ((ensureHeaderAndUnreleased docC2w).take (2 + 1)) ++
      filterNB ((splitOnNl (stagingBody (ensureHeaderAndUnreleased docC2w))).take
        (0 + 1 + (((splitOnNl (stagingBody (ensureHeaderAndUnreleased docC2w))).drop
          (0 + 1)).takeWhile (fun l => (trimC l).isEmpty)).length)) ++
      lc "- b (#56)" :: filterNB ((splitOnNl (stagingBody
        (ensureHeaderAndUnreleased docC2w))).drop
        (0 + 1 + (((splitOnNl (stagingBody (ensureHeaderAndUnreleased docC2w))).drop
          (0 + 1)).takeWhile (fun l => (trimC l).isEmpty)).length)) ++
      filterNB ((ensureHeaderAndUnreleased docC2w).drop 6) :=
  ⟨by unfold nlFree; decide, by unfold trimEndFixed; decide, by decide, by decide,
   c2_insert_frame docC2w (lc "Fixes") (lc "- b (#56)") 2 6 0
     (by unfold nlFree; decide) (by unfold trimEndFixed; decide)
     (by decide) (by decide) (by decide) (by decide) (by decide)⟩
